import Mathlib

/-!
# Verification development for `kp` (`src/main.cpp`)

A shallow embedding of the job-graph pipeline of `src/main.cpp`:
`Toposorter`, `Componenter`, `preprocess_dag`, the linking loop of `read_dag`,
`execute_dag` and `main`.

* `std::map<string, Job>` is a list of `(key, job)` pairs in the map's
  iteration order (ascending keys, `Dag.WF`); `find` is `Dag.find`.
* `std::set<string>` is a duplicate-free list: `insert` is `List.insert`,
  `erase` is `List.erase`, `size` is `List.length`.
* A C++ exception is `Except.error`.  Dereferencing `end()` and a failed
  `assert` are errors of their own, so that no theorem depends on undefined
  behaviour.
* The recursive `visit` methods take a recursion budget; `run` supplies one
  more than the number of jobs, and the budget is proved never to run out.
-/

namespace Kp

/-! ## Data model -/

/-- The errors of the program: `OrdinalError(what)`, and three conditions that
the C++ leaves to the runtime. -/
inductive Error where
  /-- `throw OrdinalError(what)`. -/
  | ordinal (what : String)
  /-- `id2job.find(id)->second` where `find` returned `end()`. -/
  | missing (id : String)
  /-- A failed `assert`. -/
  | assertion
  /-- The recursion budget of the model was used up. -/
  | fuel
  deriving DecidableEq, Repr

instance {ε α : Type} [DecidableEq ε] [DecidableEq α] : DecidableEq (Except ε α)
  | .ok a, .ok b => if h : a = b then isTrue (by rw [h]) else isFalse (fun h' => h (by cases h'; rfl))
  | .error a, .error b =>
    if h : a = b then isTrue (by rw [h]) else isFalse (fun h' => h (by cases h'; rfl))
  | .ok _, .error _ => isFalse (fun h => by cases h)
  | .error _, .ok _ => isFalse (fun h => by cases h)

/-- `struct Job`. -/
structure Job where
  id : String
  command : String
  ids_prev : List String
  ids_next : List String
  deriving DecidableEq, Repr

/-- `map<string, Job>`: the entries in iteration order. -/
abbrev Dag := List (String × Job)

/-- The keys of the map in iteration (ascending) order. -/
def Dag.keys (id2job : Dag) : List String := id2job.map Prod.fst

/-- `id2job.find(id)`: `none` stands for `end()`. -/
def Dag.find (id2job : Dag) (id : String) : Option Job := id2job.lookup id

/-- The invariant of `std::map`: keys strictly ascending (hence distinct). -/
def Dag.WF (id2job : Dag) : Prop := id2job.keys.Pairwise (· < ·)

/-- A range-based `for` loop over a vector of ids whose body may throw. -/
def forEach {σ : Type} (body : σ → String → Except Error σ) :
    σ → List String → Except Error σ
  | s, [] => .ok s
  | s, x :: xs =>
    match body s x with
    | .error e => .error e
    | .ok s' => forEach body s' xs

/-! ## Toposorter -/

/-- The mutable members of `class Toposorter`. -/
structure Toposorter where
  is_used : Bool
  marks_permanent : List String
  marks_temporary : List String
  ids_ordered : List String
  deriving DecidableEq, Repr

/-- The constructor `Toposorter(id2job)`: `is_used(false)`, empty containers. -/
def Toposorter.new : Toposorter :=
  { is_used := false, marks_permanent := [], marks_temporary := [], ids_ordered := [] }

/-- `Toposorter::visit`, with a recursion budget as first argument. -/
def Toposorter.visit (id2job : Dag) : Nat → Toposorter → String → Except Error Toposorter
  | 0, _, _ => .error .fuel
  | fuel + 1, t, id =>
    if id ∈ t.marks_permanent then .ok t
    else if id ∈ t.marks_temporary then .error (.ordinal "Not a DAG.")
    else
      let t1 := { t with marks_temporary := t.marks_temporary.insert id }
      match id2job.find id with
      | none => .error (.missing id)
      | some job =>
        match forEach (fun s id_next => Toposorter.visit id2job fuel s id_next) t1 job.ids_next with
        | .error e => .error e
        | .ok t2 =>
          .ok { t2 with
                marks_temporary := t2.marks_temporary.erase id
                marks_permanent := t2.marks_permanent.insert id
                ids_ordered := t2.ids_ordered ++ [id] }

/-- The body of the driver loop of `Toposorter::run`. -/
def Toposorter.runStep (id2job : Dag) (fuel : Nat) (t : Toposorter) (id : String) :
    Except Error Toposorter :=
  if id ∈ t.marks_permanent then .ok t else Toposorter.visit id2job fuel t id

/-- `Toposorter::run` on the object `t`, with an explicit recursion budget. -/
def Toposorter.runFuel (id2job : Dag) (fuel : Nat) (t : Toposorter) :
    Except Error (List String) :=
  if t.is_used then .error .assertion
  else
    match forEach (Toposorter.runStep id2job fuel) { t with is_used := true }
        id2job.keys.reverse with
    | .error e => .error e
    | .ok t' => .ok t'.ids_ordered.reverse

/-- `Toposorter(id2job).run()`: the recursion never nests deeper than the
number of jobs plus one. -/
def Toposorter.run (id2job : Dag) : Except Error (List String) :=
  Toposorter.runFuel id2job (id2job.length + 1) Toposorter.new

/-! ## Componenter -/

/-- The mutable members of `class Componenter`. -/
structure Componenter where
  is_used : Bool
  ids_visited : List String
  deriving DecidableEq, Repr

/-- The constructor `Componenter(id2job)`. -/
def Componenter.new : Componenter := { is_used := false, ids_visited := [] }

/-- `Componenter::visit`, with a recursion budget as first argument. -/
def Componenter.visit (id2job : Dag) : Nat → Componenter → String → Except Error Componenter
  | 0, _, _ => .error .fuel
  | fuel + 1, c, id =>
    if id ∈ c.ids_visited then .ok c
    else
      let c1 := { c with ids_visited := c.ids_visited.insert id }
      match id2job.find id with
      | none => .error (.missing id)
      | some job =>
        match forEach (fun s id_next => Componenter.visit id2job fuel s id_next) c1 job.ids_next with
        | .error e => .error e
        | .ok c2 => forEach (fun s id_prev => Componenter.visit id2job fuel s id_prev) c2 job.ids_prev

/-- `Componenter::run` on the object `c`, with an explicit recursion budget. -/
def Componenter.runFuel (id2job : Dag) (fuel : Nat) (c : Componenter) : Except Error Unit :=
  if c.is_used then .error .assertion
  else
    match id2job with
    | [] => .error .assertion
    | (id_first, _) :: _ =>
      match Componenter.visit id2job fuel { c with is_used := true } id_first with
      | .error e => .error e
      | .ok c' =>
        if c'.ids_visited.length < id2job.length then
          .error (.ordinal "More than one component.")
        else .ok ()

/-- `Componenter(id2job).run()`. -/
def Componenter.run (id2job : Dag) : Except Error Unit :=
  Componenter.runFuel id2job (id2job.length + 1) Componenter.new

/-! ## preprocess_dag -/

/-- `preprocess_dag`. -/
def preprocess_dag (id2job : Dag) : Except Error (List String) :=
  if id2job.isEmpty then .error (.ordinal "DAG is empty.")
  else
    match Toposorter.run id2job with
    | .error e => .error e
    | .ok ids_ordered =>
      match Componenter.run id2job with
      | .error e => .error e
      | .ok () => .ok ids_ordered

/-! ## Graph vocabulary of the claims -/

/-- Kernel-evaluable decision procedure for the order of ids. -/
instance decLtId (a b : String) : Decidable (a < b) :=
  decidable_of_iff (a.toList < b.toList) String.lt_iff_toList_lt.symm

/-- The successor list `id2job[id].ids_next` (empty when `id` is not a key). -/
def Dag.next (id2job : Dag) (id : String) : List String :=
  match id2job.find id with
  | some job => job.ids_next
  | none => []

/-- The dependency list `id2job[id].ids_prev` (empty when `id` is not a key). -/
def Dag.prev (id2job : Dag) (id : String) : List String :=
  match id2job.find id with
  | some job => job.ids_prev
  | none => []

/-- Edge followed by `Toposorter::visit`: `b` is listed in `a.ids_next`. -/
def Dag.Next (id2job : Dag) (a b : String) : Prop := b ∈ id2job.next a

/-- Dependency edge "`a` depends on `b`": `b` is listed in `a.ids_prev`. -/
def Dag.DependsOn (id2job : Dag) (a b : String) : Prop := b ∈ id2job.prev a

/-- Mirroring: `b.ids_next` contains `a` exactly when `a.ids_prev` contains `b`. -/
def Dag.Mirrored (id2job : Dag) : Prop :=
  ∀ a ∈ id2job.keys, ∀ b ∈ id2job.keys, a ∈ id2job.next b ↔ b ∈ id2job.prev a

/-- Referential integrity: every id in an `ids_prev` or `ids_next` list is a key. -/
def Dag.Integrity (id2job : Dag) : Prop :=
  ∀ a ∈ id2job.keys, (∀ b ∈ id2job.next a, b ∈ id2job.keys) ∧
    (∀ b ∈ id2job.prev a, b ∈ id2job.keys)

/-- Every id listed in an `ids_next` list is a key. -/
def Dag.NextClosed (id2job : Dag) : Prop :=
  ∀ a ∈ id2job.keys, ∀ b ∈ id2job.next a, b ∈ id2job.keys

/-- A directed dependency cycle: some job depends, directly or transitively,
on itself (a self-loop included). -/
def Dag.HasCycle (id2job : Dag) : Prop := ∃ a, Relation.TransGen id2job.DependsOn a a

/-- No directed dependency cycle. -/
def Dag.Acyclic (id2job : Dag) : Prop := ¬ id2job.HasCycle

instance (id2job : Dag) : Decidable id2job.Mirrored := by
  unfold Dag.Mirrored; infer_instance

instance (id2job : Dag) : Decidable id2job.Integrity := by
  unfold Dag.Integrity; infer_instance

instance (id2job : Dag) : Decidable id2job.NextClosed := by
  unfold Dag.NextClosed; infer_instance

instance (id2job : Dag) : Decidable id2job.WF := by
  unfold Dag.WF; infer_instance

/-- State invariant of the sorter: ids are appended after all their successors,
each at most once.  Stated on the reversed append sequence (the output order). -/
def TopoRev (id2job : Dag) : List String → Prop
  | [] => True
  | x :: rest => (∀ y ∈ id2job.next x, y ∈ rest) ∧ x ∉ rest ∧ TopoRev id2job rest

/-- The invariant kept by `Toposorter::visit` between calls. -/
structure Toposorter.Good (id2job : Dag) (t : Toposorter) : Prop where
  perm_iff : ∀ x, x ∈ t.marks_permanent ↔ x ∈ t.ids_ordered
  topo : TopoRev id2job t.ids_ordered.reverse
  keys : ∀ x ∈ t.ids_ordered, x ∈ id2job.keys
  temp : ∀ x ∈ t.marks_temporary, x ∉ t.marks_permanent

/-- What a successful call tree started at `id` does to the sorter. -/
structure Toposorter.Ext (id2job : Dag) (t : Toposorter) (id : String) (t' : Toposorter) :
    Prop where
  temp_eq : t'.marks_temporary = t.marks_temporary
  used_eq : t'.is_used = t.is_used
  grows : ∃ l, t'.ids_ordered = t.ids_ordered ++ l ∧
    ∀ x ∈ l, Relation.ReflTransGen id2job.Next id x

/-- Number of jobs that carry neither mark: the recursion depth still available
to `Toposorter::visit`. -/
def Toposorter.unmarked (id2job : Dag) (t : Toposorter) : Nat :=
  id2job.keys.countP (fun k => decide (k ∉ t.marks_temporary ∧ k ∉ t.marks_permanent))

/-- The error thrown on re-entering a temporarily marked id. -/
def notDag : Error := .ordinal "Not a DAG."

instance (id2job : Dag) (a b : String) : Decidable (id2job.Next a b) := by
  unfold Dag.Next; infer_instance

instance (id2job : Dag) (a b : String) : Decidable (id2job.DependsOn a b) := by
  unfold Dag.DependsOn; infer_instance

/-! ## The graphs of the concrete scenarios -/

/-- Scenario 1 after loading: `{A: deps=[], B: deps=[A], C: deps=[A]}`. -/
def scenario1 : Dag :=
  [("A", { id := "A", command := "true", ids_prev := [], ids_next := ["B", "C"] }),
   ("B", { id := "B", command := "true", ids_prev := ["A"], ids_next := [] }),
   ("C", { id := "C", command := "true", ids_prev := ["A"], ids_next := [] })]

/-- Scenario 2 after loading: `{A: deps=[B], B: deps=[A]}`. -/
def scenario2 : Dag :=
  [("A", { id := "A", command := "true", ids_prev := ["B"], ids_next := ["B"] }),
   ("B", { id := "B", command := "true", ids_prev := ["A"], ids_next := ["A"] })]

/-- Scenario 3 after loading: `{A: deps=[], B: deps=[]}`. -/
def scenario3 : Dag :=
  [("A", { id := "A", command := "true", ids_prev := [], ids_next := [] }),
   ("B", { id := "B", command := "true", ids_prev := [], ids_next := [] })]

/-- Scenario 4 after loading: `{A: deps=[]}`. -/
def scenario4 : Dag :=
  [("A", { id := "A", command := "true", ids_prev := [], ids_next := [] })]

/-- A job that lists itself as a dependency: `{A: deps=[A]}` after loading. -/
def selfLoop : Dag :=
  [("A", { id := "A", command := "true", ids_prev := ["A"], ids_next := ["A"] })]

/-- Edge followed by `Componenter::visit` out of `a`: `b` is listed in
`a.ids_next` or in `a.ids_prev`. -/
def Dag.Step (id2job : Dag) (a b : String) : Prop := id2job.Next a b ∨ id2job.DependsOn a b

/-- A dependency or dependent edge between `a` and `b`, taken in either direction. -/
def Dag.Linked (id2job : Dag) (a b : String) : Prop := id2job.Step a b ∨ id2job.Step b a

/-- Two ids are joined by a path of dependency or dependent edges taken in
either direction (the empty path included). -/
def Dag.Joined (id2job : Dag) (a b : String) : Prop :=
  Relation.ReflTransGen id2job.Linked a b

/-- The jobs form a single undirected component. -/
def Dag.Connected (id2job : Dag) : Prop :=
  ∀ a ∈ id2job.keys, ∀ b ∈ id2job.keys, id2job.Joined a b

/-- The error thrown by `Componenter::run`. -/
def moreThanOneComponent : Error := .ordinal "More than one component."

/-- Number of jobs not yet visited: the recursion depth still available to
`Componenter::visit`. -/
def Componenter.unvisited (id2job : Dag) (c : Componenter) : Nat :=
  id2job.keys.countP (fun k => decide (k ∉ c.ids_visited))

/-- What a successful `Componenter::visit` of `id` does: the visited set grows,
by ids reachable from `id` whose neighbours are all visited as well. -/
structure Componenter.Ext (id2job : Dag) (c : Componenter) (id : String) (c' : Componenter) :
    Prop where
  used_eq : c'.is_used = c.is_used
  mono : ∀ x ∈ c.ids_visited, x ∈ c'.ids_visited
  nodup : c.ids_visited.Nodup → c'.ids_visited.Nodup
  keys : ∀ x ∈ c'.ids_visited, x ∉ c.ids_visited → x ∈ id2job.keys
  reach : ∀ x ∈ c'.ids_visited, x ∉ c.ids_visited → Relation.ReflTransGen id2job.Step id x
  closed : ∀ x ∈ c'.ids_visited, x ∉ c.ids_visited → ∀ y, id2job.Step x y → y ∈ c'.ids_visited

/-- The error thrown by `preprocess_dag` on an empty map. -/
def dagIsEmpty : Error := .ordinal "DAG is empty."

/-- A graph that is both cyclic and split: `{A: deps=[B], B: deps=[A], C: deps=[]}`
after loading. -/
def cyclicAndSplit : Dag :=
  [("A", { id := "A", command := "true", ids_prev := ["B"], ids_next := ["B"] }),
   ("B", { id := "B", command := "true", ids_prev := ["A"], ids_next := ["A"] }),
   ("C", { id := "C", command := "true", ids_prev := [], ids_next := [] })]

/-- Successor lists as the loader builds them for `{A: deps=[C], B: deps=[], C: deps=[]}`. -/
def unstable : Dag :=
  [("A", { id := "A", command := "true", ids_prev := ["C"], ids_next := [] }),
   ("B", { id := "B", command := "true", ids_prev := [], ids_next := [] }),
   ("C", { id := "C", command := "true", ids_prev := [], ids_next := ["A"] })]

/-- Successor lists as the loader builds them for `{A: deps=[C], B: deps=[C], C: deps=[]}`. -/
def siblings : Dag :=
  [("A", { id := "A", command := "true", ids_prev := ["C"], ids_next := [] }),
   ("B", { id := "B", command := "true", ids_prev := ["C"], ids_next := [] }),
   ("C", { id := "C", command := "true", ids_prev := [], ids_next := ["A", "B"] })]

/-- No direct or transitive dependency relation between `x` and `y`, in either
direction. -/
def Dag.Unrelated (id2job : Dag) (x y : String) : Prop :=
  ¬ Relation.TransGen id2job.DependsOn x y ∧ ¬ Relation.TransGen id2job.DependsOn y x

/-- Every direct or transitive dependency of `x` has a smaller id than `x`. -/
def Dag.DepsBelow (id2job : Dag) (x : String) : Prop :=
  ∀ z, Relation.TransGen id2job.DependsOn x z → z < x

/-! ## execute_dag -/

/-- Modelled from the spec: the POSIX macro `WEXITSTATUS` is not part of the
repository; the exit code is bits 8..15 of the status returned by `system`. -/
def WEXITSTATUS (status : Int) : Int := (status / 256) % 256

/-- What `execute_dag` has done so far: the commands handed to `system`, in call
order, and the text written to `cerr`. -/
structure Exec where
  ran : List String
  cerr : List String
  deriving DecidableEq, Repr

/-- The error thrown by `execute_dag`. -/
def aJobFailed : Error := .ordinal "A job failed."

/-- The line `execute_dag` writes to `cerr` for one job. -/
def reportLine (id command : String) (status : Int) : String :=
  "Job " ++ id ++ ": " ++ command ++ ": " ++
    (if status = -1 then "system call failed" else "exit " ++ toString (WEXITSTATUS status)) ++
    "\n"

/-- `execute_dag`: `system` gives the status of each command; the result is what
was done together with the outcome (normal return or the exception). -/
def execute_dag (id2job : Dag) (system : String → Int) :
    List String → Exec → Exec × Except Error Unit
  | [], e => (e, .ok ())
  | id :: ids_ordered, e =>
    match id2job.find id with
    | none => (e, .error .assertion)
    | some job =>
      let status := system job.command
      let is_ok : Bool := if status = -1 then false else WEXITSTATUS status == 0
      let e' : Exec :=
        { ran := e.ran ++ [job.command], cerr := e.cerr ++ [reportLine id job.command status] }
      if is_ok then execute_dag id2job system ids_ordered e'
      else (e', .error aJobFailed)

/-- The command of job `id` (empty when `id` is not a key). -/
def Dag.command (id2job : Dag) (id : String) : String :=
  match id2job.find id with
  | some job => job.command
  | none => ""

/-- The command of job `id` does not exit with status zero: `system` returns
`-1`, or the exit code in the returned status is non-zero. -/
def Dag.Fails (id2job : Dag) (system : String → Int) (id : String) : Prop :=
  system (id2job.command id) = -1 ∨ WEXITSTATUS (system (id2job.command id)) ≠ 0

instance (id2job : Dag) (system : String → Int) (id : String) :
    Decidable (id2job.Fails system id) := by
  unfold Dag.Fails; infer_instance

/-- Scenario 5: jobs `A`, `B`, `C` in a chain with commands `a`, `b`, `c`. -/
def scenario5 : Dag :=
  [("A", { id := "A", command := "a", ids_prev := [], ids_next := ["B"] }),
   ("B", { id := "B", command := "b", ids_prev := ["A"], ids_next := ["C"] }),
   ("C", { id := "C", command := "c", ids_prev := ["B"], ids_next := [] })]

/-- Scenario 5: `a` exits 0, `b` exits 1 (status `256`), `c` would exit 0. -/
def scenario5System (command : String) : Int := if command = "b" then 256 else 0

/-! ## read_dag: the linking loop -/

/-- `job_prev.ids_next.push_back(id)` on the entry that `id2job.find(key)` finds. -/
def Dag.pushNext : Dag → String → String → Dag
  | [], _, _ => []
  | (k, job) :: rest, key, id =>
    if key = k then (k, { job with ids_next := job.ids_next ++ [id] }) :: rest
    else (k, job) :: Dag.pushNext rest key id

/-- The error thrown by the linking loop. -/
def dependencyNotFound (id id_prev : String) : Error :=
  .ordinal ("Job " ++ id ++ ": dependency not found: " ++ id_prev)

/-- Body of the inner loop of the linking loop, run for the job with id `job_id`. -/
def linkStep (job_id : String) (id2job : Dag) (id_prev : String) : Except Error Dag :=
  match id2job.find id_prev with
  | none => .error (dependencyNotFound job_id id_prev)
  | some _ => .ok (id2job.pushNext id_prev job_id)

/-- Body of the outer loop of the linking loop, at the entry with key `key`. -/
def linkJob (id2job : Dag) (key : String) : Except Error Dag :=
  match id2job.find key with
  | none => .error (.missing key)
  | some job => forEach (linkStep job.id) id2job job.ids_prev

/-- The linking loop of `read_dag` (lines 155-167): it visits the entries in key
order and mutates the `ids_next` vectors in place. -/
def link (id2job : Dag) : Except Error Dag := forEach linkJob id2job id2job.keys

/-- The value of one top-level key of the input object: `command` and `deps`. -/
structure Decl where
  command : String
  deps : List String
  deriving DecidableEq, Repr

/-- The input object: its items in key order. -/
abbrev Decls := List (String × Decl)

/-- The first loop of `read_dag`: `Job{id, command, deps}`, `ids_next` left empty. -/
def parse (decls : Decls) : Dag :=
  decls.map (fun item =>
    (item.1, { id := item.1, command := item.2.command, ids_prev := item.2.deps,
               ids_next := [] }))

/-- `read_dag` on a well-typed input object. -/
def read_dag (decls : Decls) : Except Error Dag := link (parse decls)

/-- Stages 1 and 2 of `main`: `read_dag`, then `preprocess_dag` on its result. -/
def read_and_preprocess (decls : Decls) : Except Error (List String) :=
  match read_dag decls with
  | .error e => .error e
  | .ok id2job => preprocess_dag id2job

/-- The graph `id2job` with `extra key` appended to the `ids_next` of each entry. -/
def Dag.addNext (id2job : Dag) (extra : String → List String) : Dag :=
  id2job.map (fun p => (p.1, { p.2 with ids_next := p.2.ids_next ++ extra p.1 }))

/-- What the linking loop appends to `b.ids_next` while it handles the jobs
`ks`: each job, once per occurrence of `b` in its `ids_prev`. -/
def Dag.dependents (id2job : Dag) (ks : List String) (b : String) : List String :=
  ks.flatMap (fun k => List.replicate ((id2job.prev k).count b) k)

/-- The ids of the input object, in key order. -/
def Decls.ids (decls : Decls) : List String := decls.map Prod.fst

/-- The `deps` list of job `id` in the input (empty when `id` is not an id). -/
def Decls.deps (decls : Decls) (id : String) : List String := (parse decls).prev id

/-- Two inputs with the same ids and, job by job, the same set of dependency ids
(the lists may differ in order and in repetitions). -/
def SameEdges (d1 d2 : Decls) : Prop :=
  d1.ids = d2.ids ∧
    ∀ id ∈ d1.ids, (∀ x ∈ d1.deps id, x ∈ d2.deps id) ∧ (∀ x ∈ d2.deps id, x ∈ d1.deps id)

instance (d1 d2 : Decls) : Decidable (SameEdges d1 d2) := by
  unfold SameEdges; infer_instance

/-- Every listed dependency is a top-level id. -/
def Decls.Closed (decls : Decls) : Prop :=
  ∀ id ∈ decls.ids, ∀ x ∈ decls.deps id, x ∈ decls.ids

instance (decls : Decls) : Decidable decls.Closed := by
  unfold Decls.Closed; infer_instance

/-- The ids are strictly ascending, as the items of the input object are. -/
def Decls.WF (decls : Decls) : Prop := decls.ids.Pairwise (· < ·)

instance (decls : Decls) : Decidable decls.WF := by
  unfold Decls.WF; infer_instance

/-- The graph the linking loop builds from a closed input. -/
def linked (decls : Decls) : Dag :=
  (parse decls).addNext ((parse decls).dependents (parse decls).keys)

/-- Input `{A: deps=[X, Y]}`: neither dependency is declared. -/
def missingXY : Decls := [("A", { command := "true", deps := ["X", "Y"] })]

/-- Input `{A: deps=[Y, X]}`: the same dependency set, listed the other way round. -/
def missingYX : Decls := [("A", { command := "true", deps := ["Y", "X"] })]

/-- Input `{A: deps=[C, C], B: deps=[C], C: deps=[]}`. -/
def declsRepeated : Decls :=
  [("A", { command := "true", deps := ["C", "C"] }), ("B", { command := "true", deps := ["C"] }),
   ("C", { command := "true", deps := [] })]

/-- Input `{A: deps=[C], B: deps=[C], C: deps=[]}`. -/
def declsPlain : Decls :=
  [("A", { command := "true", deps := ["C"] }), ("B", { command := "true", deps := ["C"] }),
   ("C", { command := "true", deps := [] })]

/-- Every job is stored under its own id (`emplace(id, Job{id, ...})`). -/
def Dag.IdIsKey (id2job : Dag) : Prop :=
  ∀ k job, id2job.find k = some job → job.id = k

/-- Two graphs with the same keys whose successor lists name the same jobs in
the same order, up to immediate repetitions of a job. -/
structure SameSuccessors (g1 g2 : Dag) : Prop where
  keys : g1.keys = g2.keys
  next : ∀ id ∈ g1.keys, ∃ (ks : List String) (c1 c2 : String → Nat),
    g1.next id = ks.flatMap (fun k => List.replicate (c1 k) k) ∧
    g2.next id = ks.flatMap (fun k => List.replicate (c2 k) k) ∧
    ∀ k ∈ ks, (c1 k = 0 ↔ c2 k = 0)

/-- Input `{A: deps=[C], B: deps=[], C: deps=[]}`. -/
def declsUnstable : Decls :=
  [("A", { command := "true", deps := ["C"] }), ("B", { command := "true", deps := [] }),
   ("C", { command := "true", deps := [] })]

/-- Input of scenario 1: `{A: deps=[], B: deps=[A], C: deps=[A]}`. -/
def declsScenario1 : Decls :=
  [("A", { command := "true", deps := [] }), ("B", { command := "true", deps := ["A"] }),
   ("C", { command := "true", deps := ["A"] })]

/-- Mirroring stated for all ids: `b.ids_next` contains `a` exactly when
`a.ids_prev` contains `b` (an id that is not a key has neither list). -/
def Dag.MirroredAll (id2job : Dag) : Prop :=
  ∀ a b, a ∈ id2job.next b ↔ b ∈ id2job.prev a

/-- The three members of a job that the linking loop only reads. -/
def Job.declared (job : Job) : String × String × List String :=
  (job.id, job.command, job.ids_prev)

/-- Every dependency has a smaller id than its dependent. -/
def Dag.DepsSmaller (id2job : Dag) : Prop :=
  ∀ a ∈ id2job.keys, ∀ b ∈ id2job.prev a, b < a

instance (id2job : Dag) : Decidable id2job.DepsSmaller := by
  unfold Dag.DepsSmaller; infer_instance

/-! ## main -/

/-- Modelled from the spec: the JSON library used by lines 131-153 of `read_dag`
is not part of the sources at hand.  Its outcome is taken as given: either an
`OrdinalError` with some message (input that does not parse, that is not an
object, or a job with a missing or mistyped field), or the parsed jobs. -/
inductive Input where
  | malformed (what : String)
  | jobs (decls : Decls)
  deriving DecidableEq, Repr

/-- The items of a parsed input object come in ascending key order. -/
def Input.WF : Input → Prop
  | .malformed _ => True
  | .jobs decls => decls.WF

instance (input : Input) : Decidable input.WF := by
  cases input <;> unfold Input.WF <;> infer_instance

/-- `read_dag` on any input: the errors of the first part, then the linking loop. -/
def read_dag_input : Input → Except Error Dag
  | .malformed what => .error (.ordinal what)
  | .jobs decls => read_dag decls

/-- How a run of `main` ends: the exit status (or the condition other than an
`OrdinalError` that ends the process), the commands handed to `system`, and
the text written to `cerr`. -/
structure Outcome where
  status : Except Error Int
  ran : List String
  cerr : List String
  deriving DecidableEq, Repr

/-- The clause `catch (const OrdinalError& exc)` of `main`, reached with the
variable `stage` as given: it prints the message and returns `stage`.  Any
other condition is not caught. -/
def main_catch (stage : Int) (e : Error) (ex : Exec) : Outcome :=
  match e with
  | .ordinal what => { status := .ok stage, ran := ex.ran, cerr := ex.cerr ++ [what ++ "\n"] }
  | .missing id => { status := .error (.missing id), ran := ex.ran, cerr := ex.cerr }
  | .assertion => { status := .error .assertion, ran := ex.ran, cerr := ex.cerr }
  | .fuel => { status := .error .fuel, ran := ex.ran, cerr := ex.cerr }

/-- `main`: the three stages in turn; flowing off the end returns 0. -/
def main (input : Input) (system : String → Int) : Outcome :=
  match read_dag_input input with
  | .error e => main_catch 1 e ⟨[], []⟩
  | .ok id2job =>
    match preprocess_dag id2job with
    | .error e => main_catch 2 e ⟨[], []⟩
    | .ok ids_ordered =>
      match execute_dag id2job system ids_ordered ⟨[], []⟩ with
      | (ex, .error e) => main_catch 3 e ex
      | (ex, .ok ()) => { status := .ok 0, ran := ex.ran, cerr := ex.cerr }

/-- Input of scenario 5: `{A: deps=[], B: deps=[A], C: deps=[B]}` with commands
`a`, `b`, `c`. -/
def declsScenario5 : Decls :=
  [("A", { command := "a", deps := [] }), ("B", { command := "b", deps := ["A"] }),
   ("C", { command := "c", deps := ["B"] })]

/-- Input of scenario 3: `{A: deps=[], B: deps=[]}`. -/
def declsScenario3 : Decls :=
  [("A", { command := "true", deps := [] }), ("B", { command := "true", deps := [] })]

/-! ## Theorems -/

/-! ### Loops -/

theorem forEach_nil {σ : Type} (body : σ → String → Except Error σ) (s : σ) :
    forEach body s [] = .ok s := rfl

theorem forEach_cons {σ : Type} (body : σ → String → Except Error σ) (s : σ) (x : String)
    (xs : List String) :
    forEach body s (x :: xs) =
      match body s x with
      | .error e => .error e
      | .ok s' => forEach body s' xs := rfl

/-- Loop rule for a loop that completes: an invariant `I` kept by the body holds
at the end, and every element `x` has left its mark `Q x`, which later
iterations keep. -/
theorem forEach_ok {σ : Type} {body : σ → String → Except Error σ} {I : σ → Prop}
    {Q : String → σ → Prop} :
    ∀ (xs : List String) (s s' : σ),
      (∀ s x s', x ∈ xs → I s → body s x = .ok s' →
        I s' ∧ Q x s' ∧ ∀ y, Q y s → Q y s') →
      I s → forEach body s xs = .ok s' → I s' ∧ (∀ x ∈ xs, Q x s') ∧ ∀ y, Q y s → Q y s'
  | [], s, s', _, hI, h => by
    rw [forEach_nil] at h
    cases h
    exact ⟨hI, by simp, fun _ h => h⟩
  | x :: xs, s, s', hb, hI, h => by
    rw [forEach_cons] at h
    cases hx : body s x with
    | error e => rw [hx] at h; cases h
    | ok s1 =>
      rw [hx] at h
      obtain ⟨hI1, hQ1, hmono1⟩ := hb s x s1 (List.mem_cons_self _ _) hI hx
      obtain ⟨hI2, hQ2, hmono2⟩ :=
        forEach_ok xs s1 s' (fun a y b hy => hb a y b (List.mem_cons_of_mem _ hy)) hI1 h
      refine ⟨hI2, ?_, fun y hy => hmono2 y (hmono1 y hy)⟩
      intro y hy
      rcases List.mem_cons.1 hy with rfl | hy
      · exact hmono2 _ hQ1
      · exact hQ2 y hy

/-- Loop rule for a loop that throws: the exception comes from the body, run on
some element in a state that satisfies the invariant. -/
theorem forEach_error {σ : Type} {body : σ → String → Except Error σ} {I : σ → Prop} :
    ∀ (xs : List String) (s : σ) (e : Error),
      (∀ s x s', x ∈ xs → I s → body s x = .ok s' → I s') →
      I s → forEach body s xs = .error e → ∃ s0 x, x ∈ xs ∧ I s0 ∧ body s0 x = .error e
  | [], s, e, _, _, h => by rw [forEach_nil] at h; cases h
  | x :: xs, s, e, hb, hI, h => by
    rw [forEach_cons] at h
    cases hx : body s x with
    | error e1 =>
      rw [hx] at h
      cases h
      exact ⟨s, x, List.mem_cons_self _ _, hI, hx⟩
    | ok s1 =>
      rw [hx] at h
      obtain ⟨s0, y, hy, hI0, h0⟩ :=
        forEach_error xs s1 e (fun a y b hy => hb a y b (List.mem_cons_of_mem _ hy))
          (hb s x s1 (List.mem_cons_self _ _) hI hx) h
      exact ⟨s0, y, List.mem_cons_of_mem _ hy, hI0, h0⟩

/-! ### Map lookups -/

theorem Dag.find_nil (id : String) : Dag.find [] id = none := rfl

theorem Dag.find_cons (k : String) (j : Job) (g : Dag) (id : String) :
    Dag.find ((k, j) :: g) id = if id = k then some j else Dag.find g id := by
  unfold Dag.find
  rw [List.lookup_cons]
  by_cases h : id = k
  · simp [h]
  · have hb : (id == k) = false := by simpa using h
    simp [h, hb]

theorem Dag.keys_cons (k : String) (j : Job) (g : Dag) :
    Dag.keys ((k, j) :: g) = k :: Dag.keys g := rfl

theorem Dag.mem_keys_of_find {g : Dag} {id : String} {job : Job} :
    g.find id = some job → id ∈ g.keys := by
  induction g with
  | nil => intro h; cases h
  | cons p g ih =>
    obtain ⟨k, j⟩ := p
    rw [Dag.find_cons, Dag.keys_cons]
    by_cases h : id = k
    · intro _; simp [h]
    · rw [if_neg h]; intro h'; exact List.mem_cons_of_mem _ (ih h')

theorem Dag.find_of_mem_keys {g : Dag} {id : String} :
    id ∈ g.keys → ∃ job, g.find id = some job := by
  induction g with
  | nil => intro h; cases h
  | cons p g ih =>
    obtain ⟨k, j⟩ := p
    rw [Dag.find_cons, Dag.keys_cons]
    by_cases h : id = k
    · intro _; exact ⟨j, by rw [if_pos h]⟩
    · rw [if_neg h]
      intro h'
      rcases List.mem_cons.1 h' with h1 | h1
      · exact absurd h1 h
      · exact ih h1

theorem Dag.next_of_find {g : Dag} {id : String} {job : Job} (h : g.find id = some job) :
    g.next id = job.ids_next := by
  unfold Dag.next; rw [h]

theorem Dag.prev_of_find {g : Dag} {id : String} {job : Job} (h : g.find id = some job) :
    g.prev id = job.ids_prev := by
  unfold Dag.prev; rw [h]

theorem Dag.mem_keys_of_next {g : Dag} {a b : String} (h : b ∈ g.next a) : a ∈ g.keys := by
  unfold Dag.next at h
  cases hf : g.find a with
  | none => rw [hf] at h; cases h
  | some job => exact Dag.mem_keys_of_find hf

theorem Dag.mem_keys_of_prev {g : Dag} {a b : String} (h : b ∈ g.prev a) : a ∈ g.keys := by
  unfold Dag.prev at h
  cases hf : g.find a with
  | none => rw [hf] at h; cases h
  | some job => exact Dag.mem_keys_of_find hf

/-! ### Toposorter: what a successful visit does -/

theorem Toposorter.visit_zero (g : Dag) (t : Toposorter) (id : String) :
    Toposorter.visit g 0 t id = .error .fuel := rfl

theorem Toposorter.visit_succ (g : Dag) (fuel : Nat) (t : Toposorter) (id : String) :
    Toposorter.visit g (fuel + 1) t id =
      if id ∈ t.marks_permanent then .ok t
      else if id ∈ t.marks_temporary then .error (.ordinal "Not a DAG.")
      else
        match g.find id with
        | none => .error (.missing id)
        | some job =>
          match forEach (fun s id_next => Toposorter.visit g fuel s id_next)
              { t with marks_temporary := t.marks_temporary.insert id } job.ids_next with
          | .error e => .error e
          | .ok t2 =>
            .ok { t2 with
                  marks_temporary := t2.marks_temporary.erase id
                  marks_permanent := t2.marks_permanent.insert id
                  ids_ordered := t2.ids_ordered ++ [id] } := by
  rw [Toposorter.visit]

theorem Toposorter.Ext.refl (g : Dag) (t : Toposorter) (id : String) :
    Toposorter.Ext g t id t :=
  ⟨rfl, rfl, [], by simp, by simp⟩

theorem Toposorter.Ext.mem_perm {g : Dag} {t t' : Toposorter} {id x : String}
    (hG : Toposorter.Good g t) (hG' : Toposorter.Good g t') (h : Toposorter.Ext g t id t')
    (hx : x ∈ t.marks_permanent) : x ∈ t'.marks_permanent := by
  obtain ⟨l, hl, _⟩ := h.grows
  rw [hG'.perm_iff, hl]
  exact List.mem_append_left _ ((hG.perm_iff x).1 hx)

/-- A visit that returns keeps the invariant, restores the temporary marks, only
appends ids reachable from `id`, and leaves `id` permanently marked. -/
theorem Toposorter.visit_ok (g : Dag) :
    ∀ (fuel : Nat) (t : Toposorter) (id : String) (t' : Toposorter),
      Toposorter.Good g t → Toposorter.visit g fuel t id = .ok t' →
      Toposorter.Good g t' ∧ Toposorter.Ext g t id t' ∧ id ∈ t'.marks_permanent
  | 0, t, id, t', _, h => by rw [Toposorter.visit_zero] at h; cases h
  | fuel + 1, t, id, t', hG, h => by
    rw [Toposorter.visit_succ] at h
    by_cases hp : id ∈ t.marks_permanent
    · rw [if_pos hp] at h
      cases h
      exact ⟨hG, Toposorter.Ext.refl g t id, hp⟩
    rw [if_neg hp] at h
    by_cases ht : id ∈ t.marks_temporary
    · rw [if_pos ht] at h; cases h
    rw [if_neg ht] at h
    cases hf : g.find id with
    | none => rw [hf] at h; cases h
    | some job =>
      rw [hf] at h
      simp only at h
      cases hl : forEach (fun s id_next => Toposorter.visit g fuel s id_next)
          { t with marks_temporary := t.marks_temporary.insert id } job.ids_next with
      | error e => rw [hl] at h; cases h
      | ok t2 =>
        rw [hl] at h
        simp only [Except.ok.injEq] at h
        have hins : t.marks_temporary.insert id = id :: t.marks_temporary :=
          List.insert_of_not_mem ht
        have hloop := forEach_ok
          (I := fun s => Toposorter.Good g s ∧ s.marks_temporary = id :: t.marks_temporary ∧
            s.is_used = t.is_used ∧
            ∃ l, s.ids_ordered = t.ids_ordered ++ l ∧
              ∀ x ∈ l, Relation.ReflTransGen g.Next id x)
          (Q := fun y s => y ∈ s.marks_permanent)
          job.ids_next _ t2 (by
            intro s x s' hx hI hb
            obtain ⟨hGs, hts, hus, l, hl1, hl2⟩ := hI
            obtain ⟨hGs', hE, hxp⟩ := Toposorter.visit_ok g fuel s x s' hGs hb
            refine ⟨⟨hGs', by rw [hE.temp_eq, hts], by rw [hE.used_eq, hus], ?_⟩, hxp,
              fun y hy => hE.mem_perm hGs hGs' hy⟩
            obtain ⟨l', hl1', hl2'⟩ := hE.grows
            refine ⟨l ++ l', by rw [hl1', hl1, List.append_assoc], ?_⟩
            intro z hz
            rcases List.mem_append.1 hz with hz | hz
            · exact hl2 z hz
            · have hedge : g.Next id x := by
                unfold Dag.Next; rw [Dag.next_of_find hf]; exact hx
              exact Relation.ReflTransGen.head hedge (hl2' z hz))
          (by
            refine ⟨⟨hG.perm_iff, hG.topo, hG.keys, ?_⟩, hins, rfl, [], by simp, by simp⟩
            intro x hx
            rw [hins] at hx
            rcases List.mem_cons.1 hx with rfl | hx
            · exact hp
            · exact hG.temp x hx) hl
        obtain ⟨⟨hG2, ht2, hu2, l, hl1, hl2⟩, hQ, _⟩ := hloop
        have hid2 : id ∉ t2.marks_permanent :=
          hG2.temp id (by rw [ht2]; exact List.mem_cons_self _ _)
        subst h
        refine ⟨⟨?_, ?_, ?_, ?_⟩, ⟨?_, hu2, ?_⟩, ?_⟩
        · intro x
          simp only [List.mem_insert_iff, List.mem_append, List.mem_singleton]
          rw [hG2.perm_iff x]
          tauto
        · simp only [List.reverse_append, List.reverse_cons, List.reverse_nil, List.nil_append,
            List.singleton_append]
          refine ⟨?_, ?_, hG2.topo⟩
          · intro y hy
            rw [Dag.next_of_find hf] at hy
            rw [List.mem_reverse, ← hG2.perm_iff]
            exact hQ y hy
          · rw [List.mem_reverse, ← hG2.perm_iff]
            exact hid2
        · intro x hx
          rcases List.mem_append.1 hx with hx | hx
          · exact hG2.keys x hx
          · rw [List.mem_singleton.1 hx]; exact Dag.mem_keys_of_find hf
        · intro x hx
          simp only [ht2, List.erase_cons_head] at hx
          simp only [List.mem_insert_iff, not_or]
          refine ⟨fun hxe => ht (hxe ▸ hx), ?_⟩
          exact hG2.temp x (by rw [ht2]; exact List.mem_cons_of_mem _ hx)
        · simp only [ht2, List.erase_cons_head]
        · refine ⟨l ++ [id], by simp only [hl1, List.append_assoc], ?_⟩
          intro z hz
          rcases List.mem_append.1 hz with hz | hz
          · exact hl2 z hz
          · rw [List.mem_singleton.1 hz]
        · simp only [List.mem_insert_iff, true_or]

/-! ### Toposorter: how a visit can fail -/

theorem countP_lt_of_imp {p q : String → Bool} :
    ∀ (l : List String) (a : String), a ∈ l → (∀ x, p x = true → q x = true) →
      q a = true → p a = false → l.countP p < l.countP q
  | [], _, ha, _, _, _ => by cases ha
  | x :: l, a, ha, himp, hqa, hpa => by
    have hle : l.countP p ≤ l.countP q := List.countP_mono_left (fun y _ hy => himp y hy)
    rcases List.mem_cons.1 ha with rfl | ha
    · rw [List.countP_cons_of_pos _ _ hqa, List.countP_cons_of_neg _ _ (by simp [hpa])]
      omega
    · have ih := countP_lt_of_imp l a ha himp hqa hpa
      by_cases hpx : p x = true
      · rw [List.countP_cons_of_pos _ _ hpx, List.countP_cons_of_pos _ _ (himp x hpx)]
        omega
      · rw [List.countP_cons_of_neg _ _ hpx]
        by_cases hqx : q x = true
        · rw [List.countP_cons_of_pos _ _ hqx]; omega
        · rw [List.countP_cons_of_neg _ _ hqx]; exact ih

theorem Toposorter.unmarked_le_length (g : Dag) (t : Toposorter) :
    Toposorter.unmarked g t ≤ g.length := by
  unfold Toposorter.unmarked
  have := List.countP_le_length (fun k => decide (k ∉ t.marks_temporary ∧ k ∉ t.marks_permanent))
    (l := g.keys)
  simpa [Dag.keys] using this

theorem Toposorter.unmarked_mono {g : Dag} {t t' : Toposorter}
    (ht : ∀ x, x ∈ t.marks_temporary → x ∈ t'.marks_temporary)
    (hp : ∀ x, x ∈ t.marks_permanent → x ∈ t'.marks_permanent) :
    Toposorter.unmarked g t' ≤ Toposorter.unmarked g t := by
  unfold Toposorter.unmarked
  apply List.countP_mono_left
  intro x _ hx
  simp only [decide_eq_true_eq] at hx ⊢
  exact ⟨fun h => hx.1 (ht x h), fun h => hx.2 (hp x h)⟩

/-- With every successor a key and enough budget, the only way a visit fails is
the cycle error, and then the graph has a cycle of `ids_next` edges. -/
theorem Toposorter.visit_error (g : Dag) (hN : g.NextClosed) :
    ∀ (fuel : Nat) (t : Toposorter) (id : String) (e : Error),
      Toposorter.Good g t → id ∈ g.keys → Toposorter.unmarked g t < fuel →
      (∀ x ∈ t.marks_temporary, Relation.TransGen g.Next x id) →
      Toposorter.visit g fuel t id = .error e →
      e = notDag ∧ ∃ c, Relation.TransGen g.Next c c
  | 0, t, id, e, _, _, hfuel, _, _ => by omega
  | fuel + 1, t, id, e, hG, hk, hfuel, hstack, h => by
    rw [Toposorter.visit_succ] at h
    by_cases hp : id ∈ t.marks_permanent
    · rw [if_pos hp] at h; cases h
    rw [if_neg hp] at h
    by_cases ht : id ∈ t.marks_temporary
    · rw [if_pos ht] at h
      cases h
      exact ⟨rfl, id, hstack id ht⟩
    rw [if_neg ht] at h
    obtain ⟨job, hf⟩ := Dag.find_of_mem_keys hk
    rw [hf] at h
    simp only at h
    have hins : t.marks_temporary.insert id = id :: t.marks_temporary :=
      List.insert_of_not_mem ht
    cases hl : forEach (fun s id_next => Toposorter.visit g fuel s id_next)
        { t with marks_temporary := t.marks_temporary.insert id } job.ids_next with
    | ok t2 => rw [hl] at h; cases h
    | error e1 =>
      rw [hl] at h
      cases h
      have hstart : Toposorter.unmarked g
          { t with marks_temporary := t.marks_temporary.insert id } <
          Toposorter.unmarked g t := by
        unfold Toposorter.unmarked
        apply countP_lt_of_imp g.keys id hk
        · intro x hx
          simp only [decide_eq_true_eq, List.mem_insert_iff, not_or] at hx ⊢
          exact ⟨hx.1.2, hx.2⟩
        · simp only [decide_eq_true_eq]; exact ⟨ht, hp⟩
        · simp only [decide_eq_false_iff_not, List.mem_insert_iff, true_or, not_true_eq_false,
            false_and, not_false_eq_true]
      obtain ⟨s0, x, hx, ⟨hG0, ht0, hu0⟩, h0⟩ := forEach_error
        (I := fun s => Toposorter.Good g s ∧ s.marks_temporary = id :: t.marks_temporary ∧
          Toposorter.unmarked g s < fuel)
        job.ids_next _ e (by
          intro s x s' _ hI hb
          obtain ⟨hGs, hts, hus⟩ := hI
          obtain ⟨hGs', hE, _⟩ := Toposorter.visit_ok g fuel s x s' hGs hb
          refine ⟨hGs', by rw [hE.temp_eq, hts], lt_of_le_of_lt ?_ hus⟩
          exact Toposorter.unmarked_mono (fun y hy => by rw [hE.temp_eq]; exact hy)
            (fun y hy => hE.mem_perm hGs hGs' hy))
        (by
          refine ⟨⟨hG.perm_iff, hG.topo, hG.keys, ?_⟩, hins, by omega⟩
          intro x hx
          rw [hins] at hx
          rcases List.mem_cons.1 hx with rfl | hx
          · exact hp
          · exact hG.temp x hx) hl
      have hedge : g.Next id x := by
        unfold Dag.Next; rw [Dag.next_of_find hf]; exact hx
      refine Toposorter.visit_error g hN fuel s0 x e hG0 (hN id hk x hedge) hu0 ?_ h0
      intro y hy
      rw [ht0] at hy
      rcases List.mem_cons.1 hy with rfl | hy
      · exact Relation.TransGen.single hedge
      · exact Relation.TransGen.tail (hstack y hy) hedge

/-! ### Toposorter: the driver loop -/

theorem Toposorter.good_start (g : Dag) (u : Bool) :
    Toposorter.Good g
      { is_used := u, marks_permanent := [], marks_temporary := [], ids_ordered := [] } :=
  ⟨by simp, by simp [TopoRev], by simp, by simp⟩

theorem Toposorter.runStep_ok {g : Dag} {fuel : Nat} {t t' : Toposorter} {id : String}
    (hG : Toposorter.Good g t) (h : Toposorter.runStep g fuel t id = .ok t') :
    Toposorter.Good g t' ∧ Toposorter.Ext g t id t' ∧ id ∈ t'.marks_permanent := by
  unfold Toposorter.runStep at h
  by_cases hp : id ∈ t.marks_permanent
  · rw [if_pos hp] at h
    cases h
    exact ⟨hG, Toposorter.Ext.refl g t id, hp⟩
  · rw [if_neg hp] at h
    exact Toposorter.visit_ok g fuel t id t' hG h

theorem Toposorter.runFuel_new (g : Dag) (fuel : Nat) :
    Toposorter.runFuel g fuel Toposorter.new =
      match forEach (Toposorter.runStep g fuel)
          { is_used := true, marks_permanent := [], marks_temporary := [], ids_ordered := [] }
          g.keys.reverse with
      | .error e => .error e
      | .ok t' => .ok t'.ids_ordered.reverse := rfl

/-- A run that returns yields a duplicate-free list of exactly the keys in which
every id comes before all its successors. -/
theorem Toposorter.runFuel_ok {g : Dag} {fuel : Nat} {order : List String}
    (h : Toposorter.runFuel g fuel Toposorter.new = .ok order) :
    TopoRev g order ∧ ∀ x, x ∈ order ↔ x ∈ g.keys := by
  rw [Toposorter.runFuel_new] at h
  cases hl : forEach (Toposorter.runStep g fuel)
      { is_used := true, marks_permanent := [], marks_temporary := [], ids_ordered := [] }
      g.keys.reverse with
  | error e => rw [hl] at h; cases h
  | ok t' =>
    rw [hl] at h
    simp only [Except.ok.injEq] at h
    obtain ⟨hG, hQ, _⟩ := forEach_ok (I := Toposorter.Good g)
      (Q := fun y s => y ∈ s.marks_permanent) g.keys.reverse _ t' (by
        intro s x s' _ hI hb
        obtain ⟨hG', hE, hx⟩ := Toposorter.runStep_ok hI hb
        exact ⟨hG', hx, fun y hy => hE.mem_perm hI hG' hy⟩)
      (Toposorter.good_start g true) hl
    subst h
    refine ⟨hG.topo, fun x => ?_⟩
    rw [List.mem_reverse]
    constructor
    · exact hG.keys x
    · intro hx
      rw [← hG.perm_iff]
      exact hQ x (List.mem_reverse.2 hx)

/-- With every successor a key and a budget above the number of jobs, a run can
only fail with the cycle error, and only on a graph with a cycle. -/
theorem Toposorter.runFuel_error {g : Dag} (hN : g.NextClosed) {fuel : Nat}
    (hfuel : g.length < fuel) {e : Error}
    (h : Toposorter.runFuel g fuel Toposorter.new = .error e) :
    e = notDag ∧ ∃ c, Relation.TransGen g.Next c c := by
  rw [Toposorter.runFuel_new] at h
  cases hl : forEach (Toposorter.runStep g fuel)
      { is_used := true, marks_permanent := [], marks_temporary := [], ids_ordered := [] }
      g.keys.reverse with
  | ok t' => rw [hl] at h; cases h
  | error e1 =>
    rw [hl] at h
    cases h
    obtain ⟨s0, x, hx, ⟨hG0, ht0⟩, h0⟩ := forEach_error
      (I := fun s => Toposorter.Good g s ∧ s.marks_temporary = [])
      g.keys.reverse _ e (by
        intro s x s' _ hI hb
        obtain ⟨hG', hE, _⟩ := Toposorter.runStep_ok hI.1 hb
        exact ⟨hG', by rw [hE.temp_eq, hI.2]⟩)
      ⟨Toposorter.good_start g true, rfl⟩ hl
    unfold Toposorter.runStep at h0
    by_cases hp : x ∈ s0.marks_permanent
    · rw [if_pos hp] at h0; cases h0
    · rw [if_neg hp] at h0
      refine Toposorter.visit_error g hN fuel s0 x e hG0 (List.mem_reverse.1 hx)
        (lt_of_le_of_lt (Toposorter.unmarked_le_length g s0) hfuel) ?_ h0
      intro y hy
      rw [ht0] at hy
      cases hy

/-! ### Order of the output -/

/-- In a list with the `TopoRev` property every element comes strictly before
each of its successors. -/
theorem TopoRev.indexOf_lt {g : Dag} :
    ∀ (out : List String), TopoRev g out → ∀ a ∈ out, ∀ b ∈ g.next a,
      b ∈ out ∧ out.indexOf a < out.indexOf b
  | [], _, a, ha, _, _ => by cases ha
  | x :: rest, hT, a, ha, b, hb => by
    obtain ⟨hnext, hx, hrest⟩ := hT
    by_cases hax : a = x
    · subst hax
      have hbr : b ∈ rest := hnext b hb
      have hba : b ≠ a := fun h => hx (h ▸ hbr)
      refine ⟨List.mem_cons_of_mem _ hbr, ?_⟩
      rw [List.indexOf_cons_self, List.indexOf_cons_ne _ (Ne.symm hba)]
      omega
    · have har : a ∈ rest := by
        rcases List.mem_cons.1 ha with h | h
        · exact absurd h hax
        · exact h
      obtain ⟨hbr, hlt⟩ := TopoRev.indexOf_lt rest hrest a har b hb
      have hbx : b ≠ x := fun h => hx (h ▸ hbr)
      refine ⟨List.mem_cons_of_mem _ hbr, ?_⟩
      rw [List.indexOf_cons_ne _ (Ne.symm hax), List.indexOf_cons_ne _ (Ne.symm hbx)]
      omega

theorem TopoRev.nodup {g : Dag} : ∀ (out : List String), TopoRev g out → out.Nodup
  | [], _ => List.nodup_nil
  | _ :: rest, hT => List.nodup_cons.2 ⟨hT.2.1, TopoRev.nodup rest hT.2.2⟩

/-- A path of `ids_next` edges moves strictly forward in a `TopoRev` list. -/
theorem TopoRev.indexOf_lt_of_transGen {g : Dag} {out : List String} (hT : TopoRev g out)
    {a b : String} (ha : a ∈ out) (h : Relation.TransGen g.Next a b) :
    b ∈ out ∧ out.indexOf a < out.indexOf b := by
  induction h with
  | single hab => exact TopoRev.indexOf_lt out hT a ha _ hab
  | tail _ hbc ih =>
    obtain ⟨hb, hlt⟩ := ih
    obtain ⟨hc, hlt'⟩ := TopoRev.indexOf_lt out hT _ hb _ hbc
    exact ⟨hc, lt_trans hlt hlt'⟩

/-! ### Mirrored edges -/

theorem Dag.Integrity.nextClosed {g : Dag} (hI : g.Integrity) : g.NextClosed :=
  fun a ha => (hI a ha).1

theorem Dag.dependsOn_iff_next {g : Dag} (hM : g.Mirrored) (hI : g.Integrity) (a b : String) :
    g.DependsOn a b ↔ g.Next b a := by
  unfold Dag.DependsOn Dag.Next
  constructor
  · intro h
    have ha := Dag.mem_keys_of_prev h
    exact (hM a ha b ((hI a ha).2 b h)).2 h
  · intro h
    have hb := Dag.mem_keys_of_next h
    exact (hM a ((hI b hb).1 a h) b hb).1 h

theorem Dag.transGen_next_of_dependsOn {g : Dag} (hM : g.Mirrored) (hI : g.Integrity)
    {a b : String} (h : Relation.TransGen g.DependsOn a b) : Relation.TransGen g.Next b a := by
  apply Relation.transGen_swap.1
  exact Relation.TransGen.mono (fun x y hxy => (Dag.dependsOn_iff_next hM hI x y).1 hxy) h

theorem Dag.transGen_dependsOn_of_next {g : Dag} (hM : g.Mirrored) (hI : g.Integrity)
    {a b : String} (h : Relation.TransGen g.Next a b) : Relation.TransGen g.DependsOn b a := by
  apply Relation.transGen_swap.1
  exact Relation.TransGen.mono (fun x y hxy => (Dag.dependsOn_iff_next hM hI y x).2 hxy) h

theorem Dag.mem_keys_of_transGen_next {g : Dag} {a b : String}
    (h : Relation.TransGen g.Next a b) : a ∈ g.keys := by
  obtain ⟨c, hac, _⟩ := Relation.TransGen.head'_iff.1 h
  exact Dag.mem_keys_of_next hac

/-- A rank that drops along every dependency edge rules out cycles. -/
theorem Dag.acyclic_of_rank (g : Dag) (r : String → Nat)
    (h : ∀ a ∈ g.keys, ∀ b ∈ g.prev a, r b < r a) : g.Acyclic := by
  have key : ∀ a b, Relation.TransGen g.DependsOn a b → r b < r a := by
    intro a b hab
    induction hab with
    | single hab => exact h a (Dag.mem_keys_of_prev hab) _ hab
    | tail _ hbc ih => exact lt_trans (h _ (Dag.mem_keys_of_prev hbc) _ hbc) ih
  rintro ⟨a, ha⟩
  exact lt_irrefl _ (key a a ha)

theorem Dag.WF.nodup_keys {g : Dag} (h : g.WF) : g.keys.Nodup :=
  List.Pairwise.imp (fun hab => ne_of_lt hab) h

/-! ### Toposorter: the outcome of a run -/

/-- Without a dependency cycle the run returns. -/
theorem Toposorter.run_ok_of_acyclic (g : Dag) (hI : g.Integrity) (hM : g.Mirrored)
    (hA : g.Acyclic) : ∃ order, Toposorter.run g = .ok order := by
  cases hrun : Toposorter.run g with
  | error e =>
    obtain ⟨_, c, hc⟩ := Toposorter.runFuel_error hI.nextClosed (Nat.lt_succ_self _) hrun
    exact absurd ⟨c, Dag.transGen_dependsOn_of_next hM hI hc⟩ hA
  | ok order => exact ⟨order, rfl⟩

/-- With a dependency cycle the run throws the cycle error. -/
theorem Toposorter.run_error_of_cycle (g : Dag) (hI : g.Integrity) (hM : g.Mirrored)
    (hC : g.HasCycle) : Toposorter.run g = .error notDag := by
  obtain ⟨c, hc⟩ := hC
  have hcn : Relation.TransGen g.Next c c := Dag.transGen_next_of_dependsOn hM hI hc
  cases hrun : Toposorter.run g with
  | error e =>
    obtain ⟨he, _⟩ := Toposorter.runFuel_error hI.nextClosed (Nat.lt_succ_self _) hrun
    rw [he]
  | ok order =>
    obtain ⟨hT, hmem⟩ := Toposorter.runFuel_ok hrun
    have hco : c ∈ order := (hmem c).2 (Dag.mem_keys_of_transGen_next hcn)
    exact absurd (TopoRev.indexOf_lt_of_transGen hT hco hcn).2 (lt_irrefl _)

/-! ### Claims on the Toposorter -/

/-- C1: on a graph without dependency cycle, with mirrored `ids_prev`/`ids_next`
lists and every referenced id a key, `Toposorter.run` returns an order, and for
every dependency edge "`a` depends on `b`" the index of `b` in that order is
strictly less than the index of `a`. -/
theorem C1_run_orders_dependencies_first (g : Dag) (hA : g.Acyclic) (hM : g.Mirrored)
    (hI : g.Integrity) :
    ∃ order, Toposorter.run g = .ok order ∧
      ∀ a b, g.DependsOn a b → order.indexOf b < order.indexOf a := by
  obtain ⟨order, hrun⟩ := Toposorter.run_ok_of_acyclic g hI hM hA
  refine ⟨order, hrun, ?_⟩
  obtain ⟨hT, hmem⟩ := Toposorter.runFuel_ok hrun
  intro a b hab
  have hba : g.Next b a := (Dag.dependsOn_iff_next hM hI a b).1 hab
  exact (TopoRev.indexOf_lt order hT b ((hmem b).2 (Dag.mem_keys_of_next hba)) a hba).2

/-- C2: when every id listed in an `ids_next` list is a key and `Toposorter.run`
returns an order, that order is a permutation of the keys of the map: it has
no repetition and holds exactly the keys. -/
theorem C2_run_returns_permutation_of_keys (g : Dag) (hWF : g.WF) (_hN : g.NextClosed)
    (order : List String) (hrun : Toposorter.run g = .ok order) :
    order.Perm g.keys ∧ order.Nodup ∧ ∀ id, id ∈ order ↔ id ∈ g.keys := by
  obtain ⟨hT, hmem⟩ := Toposorter.runFuel_ok hrun
  have hnd := TopoRev.nodup order hT
  exact ⟨(List.perm_ext_iff_of_nodup hnd hWF.nodup_keys).2 hmem, hnd, hmem⟩

/-- C3: on a graph with referential integrity and mirrored edges that has a
directed dependency cycle (a job depending on itself included),
`Toposorter.run` raises `Not a DAG.`; no order is returned. -/
theorem C3_run_rejects_cycles (g : Dag) (hI : g.Integrity) (hM : g.Mirrored)
    (hC : g.HasCycle) : Toposorter.run g = .error (.ordinal "Not a DAG.") :=
  Toposorter.run_error_of_cycle g hI hM hC

theorem scenario1_acyclic : scenario1.Acyclic :=
  Dag.acyclic_of_rank scenario1 (fun s => if s = "A" then 0 else 1) (by decide)

theorem scenario2_hasCycle : scenario2.HasCycle :=
  ⟨"A", Relation.TransGen.tail (Relation.TransGen.single (by decide : scenario2.DependsOn "A" "B"))
    (by decide : scenario2.DependsOn "B" "A")⟩

theorem selfLoop_hasCycle : selfLoop.HasCycle :=
  ⟨"A", Relation.TransGen.single (by decide : selfLoop.DependsOn "A" "A")⟩

/-- C1 at scenario 1: the run returns and puts `A` before `B` and before `C`. -/
theorem C1_run_orders_dependencies_first_witness :
    scenario1.Acyclic ∧ scenario1.Mirrored ∧ scenario1.Integrity ∧
      ∃ order, Toposorter.run scenario1 = .ok order ∧
        ∀ a b, scenario1.DependsOn a b → order.indexOf b < order.indexOf a :=
  ⟨scenario1_acyclic, by decide, by decide,
    C1_run_orders_dependencies_first scenario1 scenario1_acyclic (by decide) (by decide)⟩

/-- C2 at scenario 1: the returned order `[A, B, C]` is a permutation of the keys. -/
theorem C2_run_returns_permutation_of_keys_witness :
    scenario1.WF ∧ scenario1.NextClosed ∧ Toposorter.run scenario1 = .ok ["A", "B", "C"] ∧
      (["A", "B", "C"].Perm scenario1.keys ∧ ["A", "B", "C"].Nodup ∧
        ∀ id, id ∈ ["A", "B", "C"] ↔ id ∈ scenario1.keys) :=
  ⟨by decide, by decide, by decide,
    C2_run_returns_permutation_of_keys scenario1 (by decide) (by decide) ["A", "B", "C"]
      (by decide)⟩

/-- C3 at scenario 2 (`A` and `B` depend on each other). -/
theorem C3_run_rejects_cycles_witness :
    scenario2.Integrity ∧ scenario2.Mirrored ∧ scenario2.HasCycle ∧
      Toposorter.run scenario2 = .error (.ordinal "Not a DAG.") :=
  ⟨by decide, by decide, scenario2_hasCycle,
    C3_run_rejects_cycles scenario2 (by decide) (by decide) scenario2_hasCycle⟩

/-! ### Componenter: what a successful visit does -/

theorem Componenter.cvisit_zero (g : Dag) (c : Componenter) (id : String) :
    Componenter.visit g 0 c id = .error .fuel := rfl

theorem Componenter.cvisit_succ (g : Dag) (fuel : Nat) (c : Componenter) (id : String) :
    Componenter.visit g (fuel + 1) c id =
      if id ∈ c.ids_visited then .ok c
      else
        match g.find id with
        | none => .error (.missing id)
        | some job =>
          match forEach (fun s id_next => Componenter.visit g fuel s id_next)
              { c with ids_visited := c.ids_visited.insert id } job.ids_next with
          | .error e => .error e
          | .ok c2 => forEach (fun s id_prev => Componenter.visit g fuel s id_prev) c2
              job.ids_prev := by
  rw [Componenter.visit]

theorem Componenter.Ext.same (g : Dag) (c : Componenter) (id : String) :
    Componenter.Ext g c id c :=
  ⟨rfl, fun _ h => h, fun h => h, fun _ h h' => absurd h h', fun _ h h' => absurd h h',
    fun _ h h' => absurd h h'⟩

/-- Visits compose: a visit of a neighbour `x` of `id`, made after the state
already extends `c` as a visit of `id` would, keeps extending it so. -/
theorem Componenter.Ext.step {g : Dag} {c s s' : Componenter} {id x : String}
    (h1 : Componenter.Ext g c id s) (hx : Relation.ReflTransGen g.Step id x)
    (h2 : Componenter.Ext g s x s') :
    Componenter.Ext g c id s' := by
  refine ⟨by rw [h2.used_eq, h1.used_eq], fun y hy => h2.mono y (h1.mono y hy),
    fun hn => h2.nodup (h1.nodup hn), ?_, ?_, ?_⟩
  · intro y hy hyc
    by_cases hys : y ∈ s.ids_visited
    · exact h1.keys y hys hyc
    · exact h2.keys y hy hys
  · intro y hy hyc
    by_cases hys : y ∈ s.ids_visited
    · exact h1.reach y hys hyc
    · exact Relation.ReflTransGen.trans hx (h2.reach y hy hys)
  · intro y hy hyc z hz
    by_cases hys : y ∈ s.ids_visited
    · exact h2.mono z (h1.closed y hys hyc z hz)
    · exact h2.closed y hy hys z hz

/-- A visit that returns has marked `id`, and extends the visited set as
`Componenter.Ext` describes. -/
theorem Componenter.cvisit_ok (g : Dag) :
    ∀ (fuel : Nat) (c : Componenter) (id : String) (c' : Componenter),
      Componenter.visit g fuel c id = .ok c' →
      Componenter.Ext g c id c' ∧ id ∈ c'.ids_visited
  | 0, c, id, c', h => by rw [Componenter.cvisit_zero] at h; cases h
  | fuel + 1, c, id, c', h => by
    rw [Componenter.cvisit_succ] at h
    by_cases hv : id ∈ c.ids_visited
    · rw [if_pos hv] at h
      cases h
      exact ⟨Componenter.Ext.same g c id, hv⟩
    rw [if_neg hv] at h
    cases hf : g.find id with
    | none => rw [hf] at h; cases h
    | some job =>
      rw [hf] at h
      simp only at h
      have hins : c.ids_visited.insert id = id :: c.ids_visited := List.insert_of_not_mem hv
      have hloop : ∀ (xs : List String), (∀ x ∈ xs, g.Step id x) → ∀ s s',
          Componenter.Ext g { c with ids_visited := c.ids_visited.insert id } id s →
          forEach (fun s y => Componenter.visit g fuel s y) s xs = .ok s' →
          Componenter.Ext g { c with ids_visited := c.ids_visited.insert id } id s' ∧
            (∀ x ∈ xs, x ∈ s'.ids_visited) ∧
            ∀ y, y ∈ s.ids_visited → y ∈ s'.ids_visited := by
        intro xs hxs s s' hI hl
        obtain ⟨hI', hQ, hmono⟩ := forEach_ok
          (I := Componenter.Ext g { c with ids_visited := c.ids_visited.insert id } id)
          (Q := fun y s => y ∈ s.ids_visited) xs s s' (by
            intro a x b hx hIa hb
            obtain ⟨hE, hxb⟩ := Componenter.cvisit_ok g fuel a x b hb
            exact ⟨hIa.step (Relation.ReflTransGen.single (hxs x hx)) hE, hxb,
              fun y hy => hE.mono y hy⟩) hI hl
        exact ⟨hI', hQ, hmono⟩
      cases hl : forEach (fun s id_next => Componenter.visit g fuel s id_next)
          { c with ids_visited := c.ids_visited.insert id } job.ids_next with
      | error e => rw [hl] at h; cases h
      | ok c2 =>
        rw [hl] at h
        simp only at h
        obtain ⟨hE2, hQ2, _⟩ := hloop job.ids_next (fun x hx => Or.inl (by
          unfold Dag.Next; rw [Dag.next_of_find hf]; exact hx)) _ c2
          (Componenter.Ext.same g _ id) hl
        obtain ⟨hE3, hQ3, hmono3⟩ := hloop job.ids_prev (fun x hx => Or.inr (by
          unfold Dag.DependsOn; rw [Dag.prev_of_find hf]; exact hx)) c2 c' hE2 h
        have hid : id ∈ c'.ids_visited :=
          hE3.mono id (by simp only [List.mem_insert_iff, true_or])
        refine ⟨⟨hE3.used_eq, ?_, ?_, ?_, ?_, ?_⟩, hid⟩
        · intro x hx
          exact hE3.mono x (by simp only [List.mem_insert_iff]; exact Or.inr hx)
        · intro hn
          apply hE3.nodup
          simp only [hins]
          exact List.nodup_cons.2 ⟨hv, hn⟩
        · intro x hx hxc
          by_cases hxi : x = id
          · rw [hxi]; exact Dag.mem_keys_of_find hf
          · exact hE3.keys x hx (by simp only [List.mem_insert_iff, not_or]; exact ⟨hxi, hxc⟩)
        · intro x hx hxc
          by_cases hxi : x = id
          · rw [hxi]
          · exact hE3.reach x hx (by simp only [List.mem_insert_iff, not_or]; exact ⟨hxi, hxc⟩)
        · intro x hx hxc y hy
          by_cases hxi : x = id
          · rw [hxi] at hy
            rcases hy with hy | hy
            · unfold Dag.Next at hy
              rw [Dag.next_of_find hf] at hy
              exact hmono3 y (hQ2 y hy)
            · unfold Dag.DependsOn at hy
              rw [Dag.prev_of_find hf] at hy
              exact hQ3 y hy
          · exact hE3.closed x hx
              (by simp only [List.mem_insert_iff, not_or]; exact ⟨hxi, hxc⟩) y hy

/-! ### Componenter: a visit cannot fail -/

theorem Componenter.unvisited_le_length (g : Dag) (c : Componenter) :
    Componenter.unvisited g c ≤ g.length := by
  unfold Componenter.unvisited
  have := List.countP_le_length (fun k => decide (k ∉ c.ids_visited)) (l := g.keys)
  simpa [Dag.keys] using this

theorem Componenter.unvisited_mono {g : Dag} {c c' : Componenter}
    (h : ∀ x ∈ c.ids_visited, x ∈ c'.ids_visited) :
    Componenter.unvisited g c' ≤ Componenter.unvisited g c := by
  unfold Componenter.unvisited
  apply List.countP_mono_left
  intro x _ hx
  simp only [decide_eq_true_eq] at hx ⊢
  exact fun hxc => hx (h x hxc)

theorem Componenter.loop_unvisited {g : Dag} {fuel : Nat} :
    ∀ (xs : List String) (s s' : Componenter), Componenter.unvisited g s < fuel →
      forEach (fun s y => Componenter.visit g fuel s y) s xs = .ok s' →
      Componenter.unvisited g s' < fuel := by
  intro xs s s' hs hl
  exact (forEach_ok (I := fun s => Componenter.unvisited g s < fuel) (Q := fun _ _ => True)
    xs s s' (by
      intro a x b _ hIa hb
      obtain ⟨hE, _⟩ := Componenter.cvisit_ok g fuel a x b hb
      exact ⟨lt_of_le_of_lt (Componenter.unvisited_mono hE.mono) hIa, trivial,
        fun _ _ => trivial⟩) hs hl).1

/-- With referential integrity and enough budget, `Componenter::visit` of a key
returns: it has no `throw`, and neither the lookup nor the budget fails. -/
theorem Componenter.visit_no_error (g : Dag) (hI : g.Integrity) :
    ∀ (fuel : Nat) (c : Componenter) (id : String) (e : Error),
      id ∈ g.keys → Componenter.unvisited g c < fuel →
      Componenter.visit g fuel c id ≠ .error e
  | 0, c, id, e, _, hfuel => by omega
  | fuel + 1, c, id, e, hk, hfuel => by
    intro h
    rw [Componenter.cvisit_succ] at h
    by_cases hv : id ∈ c.ids_visited
    · rw [if_pos hv] at h; cases h
    rw [if_neg hv] at h
    obtain ⟨job, hf⟩ := Dag.find_of_mem_keys hk
    rw [hf] at h
    simp only at h
    have hstart : Componenter.unvisited g
        { c with ids_visited := c.ids_visited.insert id } < Componenter.unvisited g c := by
      unfold Componenter.unvisited
      apply countP_lt_of_imp g.keys id hk
      · intro x hx
        simp only [decide_eq_true_eq, List.mem_insert_iff, not_or] at hx ⊢
        exact hx.2
      · simp only [decide_eq_true_eq]; exact hv
      · simp only [decide_eq_false_iff_not, List.mem_insert_iff, true_or, not_true_eq_false,
          not_false_eq_true]
    have hloopE : ∀ (xs : List String), (∀ x ∈ xs, x ∈ g.keys) → ∀ (s : Componenter) (e : Error),
        Componenter.unvisited g s < fuel →
        forEach (fun s y => Componenter.visit g fuel s y) s xs ≠ .error e := by
      intro xs hxs s e hs hl
      obtain ⟨s0, x, hx, hI0, h0⟩ := forEach_error
        (I := fun s => Componenter.unvisited g s < fuel) xs s e (by
          intro a x b _ hIa hb
          obtain ⟨hE, _⟩ := Componenter.cvisit_ok g fuel a x b hb
          exact lt_of_le_of_lt (Componenter.unvisited_mono hE.mono) hIa) hs hl
      exact Componenter.visit_no_error g hI fuel s0 x e (hxs x hx) hI0 h0
    have hnext : ∀ x ∈ job.ids_next, x ∈ g.keys := by
      intro x hx
      exact (hI id hk).1 x (by rw [Dag.next_of_find hf]; exact hx)
    have hprev : ∀ x ∈ job.ids_prev, x ∈ g.keys := by
      intro x hx
      exact (hI id hk).2 x (by rw [Dag.prev_of_find hf]; exact hx)
    cases hl : forEach (fun s id_next => Componenter.visit g fuel s id_next)
        { c with ids_visited := c.ids_visited.insert id } job.ids_next with
    | error e1 => exact hloopE job.ids_next hnext _ e1 (by omega) hl
    | ok c2 =>
      rw [hl] at h
      simp only at h
      exact hloopE job.ids_prev hprev c2 e
        (Componenter.loop_unvisited job.ids_next _ c2 (by omega) hl) h

/-! ### Componenter: the run -/

/-- The run visits a duplicate-free set `V` of keys that contains the first key,
is closed under the edges followed by `visit`, holds only ids reachable from
the first key, and the outcome is decided by comparing its size with the map's. -/
theorem Componenter.run_spec (g : Dag) (hI : g.Integrity) (first : String) (job : Job)
    (rest : Dag) (hg : g = (first, job) :: rest) :
    ∃ V : List String, V.Nodup ∧ (∀ x ∈ V, x ∈ g.keys) ∧ first ∈ V ∧
      (∀ x ∈ V, ∀ y, g.Step x y → y ∈ V) ∧
      (∀ x ∈ V, Relation.ReflTransGen g.Step first x) ∧
      Componenter.run g =
        if V.length < g.length then .error moreThanOneComponent else .ok () := by
  have hk : first ∈ g.keys := by rw [hg]; exact List.mem_cons_self _ _
  cases hv : Componenter.visit g (g.length + 1) { is_used := true, ids_visited := [] } first with
  | error e =>
    exact absurd hv (Componenter.visit_no_error g hI _ _ first e hk
      (Nat.lt_succ_of_le (Componenter.unvisited_le_length g _)))
  | ok c' =>
    obtain ⟨hE, hfirst⟩ := Componenter.cvisit_ok g _ _ first c' hv
    refine ⟨c'.ids_visited, hE.nodup List.nodup_nil, fun x hx => hE.keys x hx (by simp),
      hfirst, fun x hx => hE.closed x hx (by simp), fun x hx => hE.reach x hx (by simp), ?_⟩
    have hrun : Componenter.run g =
        match Componenter.visit g (g.length + 1) { is_used := true, ids_visited := [] }
          first with
        | .error e => .error e
        | .ok c' =>
          if c'.ids_visited.length < g.length then .error moreThanOneComponent
          else .ok () := by
      subst hg; rfl
    rw [hrun, hv]

theorem Dag.step_symm {g : Dag} (hM : g.Mirrored) (hI : g.Integrity) {a b : String}
    (h : g.Step a b) : g.Step b a := by
  rcases h with h | h
  · exact Or.inr ((Dag.dependsOn_iff_next hM hI b a).2 h)
  · exact Or.inl ((Dag.dependsOn_iff_next hM hI a b).1 h)

theorem Dag.Joined.symm {g : Dag} {a b : String} (h : g.Joined a b) : g.Joined b a := by
  unfold Dag.Joined at h ⊢
  have hs : Symmetric g.Linked := fun x y hxy => Or.symm hxy
  exact Relation.ReflTransGen.symmetric hs h

theorem Dag.joined_of_reach {g : Dag} {a b : String} (h : Relation.ReflTransGen g.Step a b) :
    g.Joined a b :=
  Relation.ReflTransGen.mono (fun _ _ hxy => Or.inl hxy) h

/-- A set closed under the edges followed by `visit` holds everything joined to
one of its members. -/
theorem Dag.mem_of_joined {g : Dag} (hM : g.Mirrored) (hI : g.Integrity) {V : List String}
    (hV : ∀ x ∈ V, ∀ y, g.Step x y → y ∈ V) {a b : String} (ha : a ∈ V)
    (h : g.Joined a b) : b ∈ V := by
  unfold Dag.Joined at h
  induction h with
  | refl => exact ha
  | tail _ hbc ih =>
    rcases hbc with hbc | hbc
    · exact hV _ ih _ hbc
    · exact hV _ ih _ (Dag.step_symm hM hI hbc)

theorem length_lt_iff_exists_not_mem {V K : List String} (hV : V.Nodup) (hK : K.Nodup)
    (hVK : ∀ x ∈ V, x ∈ K) : V.length < K.length ↔ ∃ x ∈ K, x ∉ V := by
  constructor
  · intro hlt
    by_contra hcon
    push_neg at hcon
    have := (List.subperm_of_subset hK hcon).length_le
    omega
  · rintro ⟨x, hxK, hxV⟩
    have hsub : ∀ y ∈ x :: V, y ∈ K := by
      intro y hy
      rcases List.mem_cons.1 hy with rfl | hy
      · exact hxK
      · exact hVK y hy
    have := (List.subperm_of_subset (List.nodup_cons.2 ⟨hxV, hV⟩) hsub).length_le
    simp only [List.length_cons] at this
    omega

/-- The outcome of `Componenter.run` on a non-empty well-formed graph: accepted
exactly when the jobs form one component, rejected otherwise. -/
theorem Componenter.run_eq (g : Dag) (hne : g ≠ []) (hWF : g.WF) (hI : g.Integrity)
    (hM : g.Mirrored) [Decidable g.Connected] :
    Componenter.run g = if g.Connected then .ok () else .error moreThanOneComponent := by
  obtain ⟨⟨first, job⟩, rest, hg⟩ := List.exists_cons_of_ne_nil hne
  obtain ⟨V, hnd, hVK, hfirst, hclosed, hreach, hrun⟩ := Componenter.run_spec g hI first job rest hg
  have hlen := length_lt_iff_exists_not_mem hnd hWF.nodup_keys hVK
  have hkl : g.keys.length = g.length := by simp [Dag.keys]
  rw [hkl] at hlen
  rw [hrun]
  by_cases hc : g.Connected
  · rw [if_pos hc, if_neg]
    rw [hlen]
    rintro ⟨x, hxK, hxV⟩
    exact hxV (Dag.mem_of_joined hM hI hclosed hfirst (hc first (hVK first hfirst) x hxK))
  · rw [if_neg hc, if_pos]
    rw [hlen]
    by_contra hcon
    push_neg at hcon
    apply hc
    intro a ha b hb
    exact Relation.ReflTransGen.trans (Dag.joined_of_reach (hreach a (hcon a ha))).symm
      (Dag.joined_of_reach (hreach b (hcon b hb)))

/-! ### Claims on the Componenter and on preprocess_dag -/

/-- Ids outside a set closed under both edge lists are joined to no member of it. -/
theorem Dag.not_joined_of_closed {g : Dag} (hM : g.Mirrored) (hI : g.Integrity)
    (V : List String)
    (hV : ∀ x ∈ V, (∀ y ∈ g.next x, y ∈ V) ∧ (∀ y ∈ g.prev x, y ∈ V)) {a b : String}
    (ha : a ∈ V) (hb : b ∉ V) : ¬ g.Joined a b := by
  intro h
  refine hb (Dag.mem_of_joined hM hI ?_ ha h)
  intro x hx y hxy
  rcases hxy with hxy | hxy
  · exact (hV x hx).1 y hxy
  · exact (hV x hx).2 y hxy

theorem scenario3_not_joined : ¬ scenario3.Joined "A" "B" :=
  Dag.not_joined_of_closed (by decide) (by decide) ["A"] (by decide) (by decide) (by decide)

theorem cyclicAndSplit_not_connected : ¬ cyclicAndSplit.Connected := fun h =>
  Dag.not_joined_of_closed (by decide) (by decide) ["A", "B"] (by decide) (by decide)
    (by decide) (h "A" (by decide) "C" (by decide))

theorem cyclicAndSplit_hasCycle : cyclicAndSplit.HasCycle :=
  ⟨"A", Relation.TransGen.tail
    (Relation.TransGen.single (by decide : cyclicAndSplit.DependsOn "A" "B"))
    (by decide : cyclicAndSplit.DependsOn "B" "A")⟩

/-- C4: on a non-empty graph (a `std::map`, keys ascending) with referential
integrity and mirrored lists, `Componenter.run` raises `More than one
component.` exactly when two job ids are not joined by any path of dependency
or dependent edges taken in either direction, and returns normally exactly
when the jobs form one undirected component. -/
theorem C4_componenter_rejects_exactly_split_graphs (g : Dag) (hne : g ≠ []) (hWF : g.WF)
    (hI : g.Integrity) (hM : g.Mirrored) :
    (Componenter.run g = .error (.ordinal "More than one component.") ↔
        ∃ a ∈ g.keys, ∃ b ∈ g.keys, ¬ g.Joined a b) ∧
      (Componenter.run g = .ok () ↔ g.Connected) := by
  have hrun := @Componenter.run_eq g hne hWF hI hM (Classical.propDecidable _)
  by_cases hc : g.Connected
  · rw [if_pos hc] at hrun
    rw [hrun]
    refine ⟨Iff.intro (fun h => by cases h) ?_, Iff.intro (fun _ => hc) (fun _ => rfl)⟩
    rintro ⟨a, ha, b, hb, hab⟩
    exact absurd (hc a ha b hb) hab
  · rw [if_neg hc] at hrun
    rw [hrun]
    refine ⟨Iff.intro (fun _ => ?_) (fun _ => rfl),
      Iff.intro (fun h => by cases h) (fun h => absurd h hc)⟩
    by_contra hcon
    apply hc
    intro a ha b hb
    by_contra hab
    exact hcon ⟨a, ha, b, hb, hab⟩

/-- C4 at scenario 3: two jobs with no edge between them are rejected. -/
theorem C4_componenter_rejects_exactly_split_graphs_witness :
    scenario3 ≠ [] ∧ scenario3.WF ∧ scenario3.Integrity ∧ scenario3.Mirrored ∧
      (∃ a ∈ scenario3.keys, ∃ b ∈ scenario3.keys, ¬ scenario3.Joined a b) ∧
      Componenter.run scenario3 = .error (.ordinal "More than one component.") :=
  ⟨by decide, by decide, by decide, by decide,
    ⟨"A", by decide, "B", by decide, scenario3_not_joined⟩,
    (C4_componenter_rejects_exactly_split_graphs scenario3 (by decide) (by decide) (by decide)
      (by decide)).1.2 ⟨"A", by decide, "B", by decide, scenario3_not_joined⟩⟩

theorem preprocess_dag_nil : preprocess_dag [] = .error dagIsEmpty := rfl

theorem preprocess_dag_of_ne_nil {g : Dag} (hne : g ≠ []) :
    preprocess_dag g =
      match Toposorter.run g with
      | .error e => .error e
      | .ok ids_ordered =>
        match Componenter.run g with
        | .error e => .error e
        | .ok () => .ok ids_ordered := by
  cases g with
  | nil => exact absurd rfl hne
  | cons p g => rfl

/-- The three possible outcomes of `preprocess_dag` on a non-empty graph. -/
theorem preprocess_dag_cases (g : Dag) (hne : g ≠ []) (hWF : g.WF) (hI : g.Integrity)
    (hM : g.Mirrored) :
    (g.HasCycle ∧ preprocess_dag g = .error notDag) ∨
      (g.Acyclic ∧ ¬ g.Connected ∧ preprocess_dag g = .error moreThanOneComponent) ∨
      (g.Acyclic ∧ g.Connected ∧ ∃ order, Toposorter.run g = .ok order ∧
        preprocess_dag g = .ok order) := by
  rw [preprocess_dag_of_ne_nil hne]
  by_cases hC : g.HasCycle
  · left
    rw [Toposorter.run_error_of_cycle g hI hM hC]
    exact ⟨hC, rfl⟩
  · right
    obtain ⟨order, hrun⟩ := Toposorter.run_ok_of_acyclic g hI hM hC
    rw [hrun, @Componenter.run_eq g hne hWF hI hM (Classical.propDecidable _)]
    by_cases hc : g.Connected
    · right
      rw [if_pos hc]
      exact ⟨hC, hc, order, rfl, rfl⟩
    · left
      rw [if_neg hc]
      exact ⟨hC, hc, rfl⟩

theorem Dag.ne_nil_of_hasCycle {g : Dag} (hC : g.HasCycle) : g ≠ [] := by
  obtain ⟨c, hc⟩ := hC
  obtain ⟨b, hcb, _⟩ := Relation.TransGen.head'_iff.1 hc
  have hk := Dag.mem_keys_of_prev hcb
  intro hg
  rw [hg] at hk
  cases hk

theorem scenario4_acyclic : scenario4.Acyclic :=
  Dag.acyclic_of_rank scenario4 (fun _ => 0) (by decide)

theorem scenario4_connected : scenario4.Connected := by
  intro a ha b hb
  have h : ∀ x ∈ scenario4.keys, x = "A" := by decide
  rw [h a ha, h b hb]
  exact Relation.ReflTransGen.refl

/-- C5: on a graph (a `std::map`) with referential integrity and mirrored edges,
`preprocess_dag` returns an order exactly when the graph is non-empty, has no
dependency cycle and is one undirected component; the order it returns is the
one `Toposorter.run` returns on that graph. -/
theorem C5_preprocess_dag_returns_iff_valid (g : Dag) (hWF : g.WF) (hI : g.Integrity)
    (hM : g.Mirrored) :
    ((∃ order, preprocess_dag g = .ok order) ↔ (g ≠ [] ∧ g.Acyclic ∧ g.Connected)) ∧
      ∀ order, preprocess_dag g = .ok order → Toposorter.run g = .ok order := by
  by_cases hne : g = []
  · subst hne
    refine ⟨Iff.intro ?_ (fun h => absurd rfl h.1), ?_⟩
    · rintro ⟨order, h⟩
      rw [preprocess_dag_nil] at h
      cases h
    · intro order h
      rw [preprocess_dag_nil] at h
      cases h
  · rcases preprocess_dag_cases g hne hWF hI hM with ⟨hC, hp⟩ | ⟨hA, hS, hp⟩ | ⟨hA, hc, o, ho, hp⟩
    · rw [hp]
      refine ⟨Iff.intro ?_ (fun h => absurd hC h.2.1), fun order h => by cases h⟩
      rintro ⟨order, h⟩
      cases h
    · rw [hp]
      refine ⟨Iff.intro ?_ (fun h => absurd h.2.2 hS), fun order h => by cases h⟩
      rintro ⟨order, h⟩
      cases h
    · rw [hp]
      refine ⟨Iff.intro (fun _ => ⟨hne, hA, hc⟩) (fun _ => ⟨o, rfl⟩), ?_⟩
      intro order h
      cases h
      exact ho

/-- C5 at scenario 4: the single job `A` without dependencies gives `[A]`. -/
theorem C5_preprocess_dag_returns_iff_valid_witness :
    scenario4.WF ∧ scenario4.Integrity ∧ scenario4.Mirrored ∧
      preprocess_dag scenario4 = .ok ["A"] ∧ Toposorter.run scenario4 = .ok ["A"] ∧
      (scenario4 ≠ [] ∧ scenario4.Acyclic ∧ scenario4.Connected) :=
  ⟨by decide, by decide, by decide, by decide,
    (C5_preprocess_dag_returns_iff_valid scenario4 (by decide) (by decide) (by decide)).2
      ["A"] (by decide),
    (C5_preprocess_dag_returns_iff_valid scenario4 (by decide) (by decide) (by decide)).1.1
      ⟨["A"], by decide⟩⟩

/-- C7: on the empty graph `preprocess_dag` ends in the `DAG is empty.` error.
That error is not what the sorter or the checker would have produced there:
the sorter returns the empty order and the checker fails its non-emptiness
assertion. -/
theorem C7_empty_graph_is_rejected_first :
    preprocess_dag [] = .error (.ordinal "DAG is empty.") ∧
      Toposorter.run [] = .ok [] ∧ Componenter.run [] = .error .assertion :=
  ⟨rfl, rfl, rfl⟩

/-- C8: on a graph with referential integrity and mirrored edges that has a
dependency cycle and is split into more than one undirected component,
`preprocess_dag` raises `Not a DAG.`, not `More than one component.`. -/
theorem C8_cycle_error_wins_over_split (g : Dag) (hI : g.Integrity) (hM : g.Mirrored)
    (hC : g.HasCycle) (_hS : ¬ g.Connected) :
    preprocess_dag g = .error (.ordinal "Not a DAG.") ∧
      preprocess_dag g ≠ .error (.ordinal "More than one component.") := by
  have h : preprocess_dag g = .error (.ordinal "Not a DAG.") := by
    rw [preprocess_dag_of_ne_nil (Dag.ne_nil_of_hasCycle hC),
      Toposorter.run_error_of_cycle g hI hM hC]
    rfl
  rw [h]
  exact ⟨rfl, by decide⟩

/-- C8 at `{A: deps=[B], B: deps=[A], C: deps=[]}`. -/
theorem C8_cycle_error_wins_over_split_witness :
    cyclicAndSplit.Integrity ∧ cyclicAndSplit.Mirrored ∧ cyclicAndSplit.HasCycle ∧
      ¬ cyclicAndSplit.Connected ∧
      preprocess_dag cyclicAndSplit = .error (.ordinal "Not a DAG.") :=
  ⟨by decide, by decide, cyclicAndSplit_hasCycle, cyclicAndSplit_not_connected,
    (C8_cycle_error_wins_over_split cyclicAndSplit (by decide) (by decide)
      cyclicAndSplit_hasCycle cyclicAndSplit_not_connected).1⟩

/-! ### Stability of the order -/

theorem forEach_append {σ : Type} (body : σ → String → Except Error σ) :
    ∀ (xs ys : List String) (s s'' : σ), forEach body s (xs ++ ys) = .ok s'' →
      ∃ s', forEach body s xs = .ok s' ∧ forEach body s' ys = .ok s''
  | [], ys, s, s'', h => ⟨s, rfl, h⟩
  | x :: xs, ys, s, s'', h => by
    rw [List.cons_append, forEach_cons] at h
    rw [forEach_cons]
    cases hx : body s x with
    | error e => rw [hx] at h; cases h
    | ok s1 =>
      rw [hx] at h
      exact forEach_append body xs ys s1 s'' h

theorem indexOf_lt_of_append {A B : List String} {x y : String} (hx : x ∈ A) (hy : y ∉ A) :
    (A ++ B).indexOf x < (A ++ B).indexOf y := by
  rw [List.indexOf_append_of_mem hx, List.indexOf_append_of_not_mem hy]
  have := List.indexOf_lt_length.2 hx
  omega

/-- The driver loop started on roots `roots` appends only ids reachable from one
of the roots, and leaves every root permanently marked. -/
theorem Toposorter.driver_ok {g : Dag} {fuel : Nat} (roots : List String)
    (s s' : Toposorter) (hG : Toposorter.Good g s)
    (h : forEach (Toposorter.runStep g fuel) s roots = .ok s') :
    Toposorter.Good g s' ∧ (∀ r ∈ roots, r ∈ s'.ids_ordered) ∧
      ∃ l, s'.ids_ordered = s.ids_ordered ++ l ∧
        ∀ z ∈ l, ∃ r ∈ roots, Relation.ReflTransGen g.Next r z := by
  obtain ⟨⟨hG', l, hl, hreach⟩, hQ, _⟩ := forEach_ok
    (I := fun a => Toposorter.Good g a ∧ ∃ l, a.ids_ordered = s.ids_ordered ++ l ∧
      ∀ z ∈ l, ∃ r ∈ roots, Relation.ReflTransGen g.Next r z)
    (Q := fun y a => Toposorter.Good g a ∧ y ∈ a.marks_permanent) roots s s' (by
      intro a x b hx hIa hb
      obtain ⟨hGa, l, hl, hreach⟩ := hIa
      obtain ⟨hGb, hE, hxb⟩ := Toposorter.runStep_ok hGa hb
      obtain ⟨l', hl', hreach'⟩ := hE.grows
      refine ⟨⟨hGb, l ++ l', by rw [hl', hl, List.append_assoc], ?_⟩, ⟨hGb, hxb⟩,
        fun y hy => ⟨hGb, hE.mem_perm hy.1 hGb hy.2⟩⟩
      intro z hz
      rcases List.mem_append.1 hz with hz | hz
      · exact hreach z hz
      · exact ⟨x, hx, hreach' z hz⟩)
    ⟨hG, [], by simp, by simp⟩ h
  exact ⟨hG', fun r hr => (hG'.perm_iff r).1 (hQ r hr).2, l, hl, hreach⟩

/-- Half of stability: a job `x` that no job with a larger-or-equal id leads to
comes out before every job `y` with a larger id. -/
theorem Toposorter.index_lt_of_lt {g : Dag} (hWF : g.WF) {x y : String} (hx : x ∈ g.keys)
    (hy : y ∈ g.keys) (hxy : x < y) (hbelow : ∀ z, Relation.TransGen g.Next z x → z < x)
    {order : List String} (hrun : Toposorter.run g = .ok order) :
    order.indexOf x < order.indexOf y := by
  obtain ⟨k1, k2, hk⟩ := List.append_of_mem hy
  have hpw : (k1 ++ y :: k2).Pairwise (· < ·) := by rw [← hk]; exact hWF
  rw [List.pairwise_append, List.pairwise_cons] at hpw
  obtain ⟨_, ⟨hk2, _⟩, _⟩ := hpw
  have hxk1 : x ∈ k1 := by
    rw [hk] at hx
    rcases List.mem_append.1 hx with h | h
    · exact h
    · rcases List.mem_cons.1 h with h | h
      · exact absurd hxy (by rw [h]; exact lt_irrefl _)
      · exact absurd (lt_trans hxy (hk2 x h)) (lt_irrefl _)
  have hrev : g.keys.reverse = (k2.reverse ++ [y]) ++ k1.reverse := by
    rw [hk]; simp
  have hroot : ∀ r ∈ k2.reverse ++ [y], x < r := by
    intro r hr
    rcases List.mem_append.1 hr with h | h
    · exact lt_trans hxy (hk2 r (List.mem_reverse.1 h))
    · rw [List.mem_singleton.1 h]; exact hxy
  unfold Toposorter.run at hrun
  rw [Toposorter.runFuel_new] at hrun
  cases hl : forEach (Toposorter.runStep g (g.length + 1))
      { is_used := true, marks_permanent := [], marks_temporary := [], ids_ordered := [] }
      g.keys.reverse with
  | error e => rw [hl] at hrun; cases hrun
  | ok t' =>
    rw [hl] at hrun
    simp only [Except.ok.injEq] at hrun
    rw [hrev] at hl
    obtain ⟨mid, h1, h2⟩ := forEach_append _ _ _ _ _ hl
    obtain ⟨hGm, hQm, l1, hl1, hreach1⟩ :=
      Toposorter.driver_ok _ _ mid (Toposorter.good_start g true) h1
    obtain ⟨hGt, hQt, l2, hl2, _⟩ := Toposorter.driver_ok _ _ t' hGm h2
    have hym : y ∈ mid.ids_ordered := hQm y (by simp)
    have hxm : x ∉ mid.ids_ordered := by
      intro hxm
      rw [hl1] at hxm
      simp only [List.nil_append] at hxm
      obtain ⟨r, hr, hrx⟩ := hreach1 x hxm
      have hlt := hroot r hr
      rcases Relation.reflTransGen_iff_eq_or_transGen.1 hrx with h | h
      · rw [h] at hlt; exact lt_irrefl _ hlt
      · exact lt_irrefl _ (lt_trans hlt (hbelow r h))
    have hxt : x ∈ t'.ids_ordered := hQt x (List.mem_reverse.2 hxk1)
    have hx2 : x ∈ l2 := by
      rw [hl2] at hxt
      rcases List.mem_append.1 hxt with h | h
      · exact absurd h hxm
      · exact h
    have hnd : t'.ids_ordered.Nodup := by
      have := TopoRev.nodup _ hGt.topo
      exact List.nodup_reverse.1 this
    rw [hl2] at hnd
    have hy2 : y ∉ l2 := fun h => (List.disjoint_of_nodup_append hnd) hym h
    rw [← hrun, hl2, List.reverse_append]
    exact indexOf_lt_of_append (List.mem_reverse.2 hx2) (fun h => hy2 (List.mem_reverse.1 h))

theorem Dag.depsBelow_next {g : Dag} (hM : g.Mirrored) (hI : g.Integrity) {x : String}
    (h : g.DepsBelow x) : ∀ z, Relation.TransGen g.Next z x → z < x :=
  fun z hz => h z (Dag.transGen_dependsOn_of_next hM hI hz)

/-- Ids reached along dependencies from `a` stay inside any set that holds the
dependencies of `a` and is closed under dependencies. -/
theorem Dag.mem_of_transGen_dependsOn {g : Dag} (V : List String) {a z : String}
    (h0 : ∀ y ∈ g.prev a, y ∈ V) (hV : ∀ x ∈ V, ∀ y ∈ g.prev x, y ∈ V)
    (h : Relation.TransGen g.DependsOn a z) : z ∈ V := by
  induction h with
  | single hab => exact h0 _ hab
  | tail _ hbc ih => exact hV _ ih _ hbc

theorem unstable_acyclic : unstable.Acyclic :=
  Dag.acyclic_of_rank unstable (fun s => if s = "A" then 1 else 0) (by decide)

theorem siblings_acyclic : siblings.Acyclic :=
  Dag.acyclic_of_rank siblings (fun s => if s = "C" then 0 else 1) (by decide)

theorem unstable_unrelated : unstable.Unrelated "A" "B" :=
  ⟨fun h => absurd (Dag.mem_of_transGen_dependsOn ["C"] (by decide) (by decide) h) (by decide),
    fun h => absurd (Dag.mem_of_transGen_dependsOn [] (by decide) (by decide) h) (by decide)⟩

theorem siblings_unrelated : siblings.Unrelated "A" "B" :=
  ⟨fun h => absurd (Dag.mem_of_transGen_dependsOn ["C"] (by decide) (by decide) h) (by decide),
    fun h => absurd (Dag.mem_of_transGen_dependsOn ["C"] (by decide) (by decide) h) (by decide)⟩

/-- On `{A: deps=[C], B: deps=[], C: deps=[]}` no order at all puts the
dependency `C` before `A` and also keeps the unrelated pairs `A, B` and `B, C`
in ascending id order. -/
theorem unstable_admits_no_stable_order :
    ¬ ∃ order : List String, order.indexOf "C" < order.indexOf "A" ∧
      (order.indexOf "A" < order.indexOf "B" ↔ "A" < "B") ∧
      (order.indexOf "B" < order.indexOf "C" ↔ "B" < "C") := by
  rintro ⟨order, h1, h2, h3⟩
  have hab : order.indexOf "A" < order.indexOf "B" := h2.2 (by decide)
  have hbc : order.indexOf "B" < order.indexOf "C" := h3.2 (by decide)
  omega

/-- C6, as stated, fails: in `{A: deps=[C], B: deps=[], C: deps=[]}` and in
`{A: deps=[C], B: deps=[C], C: deps=[]}` the jobs `A` and `B` have no
dependency relation and `A` has the smaller id, yet the returned orders
`[B, C, A]` and `[C, B, A]` put `B` first. -/
theorem C6_stability_counterexample :
    (read_dag declsUnstable = .ok unstable ∧
      unstable.Acyclic ∧ unstable.Mirrored ∧ unstable.Unrelated "A" "B" ∧
      Toposorter.run unstable = .ok ["B", "C", "A"] ∧
      ¬ (["B", "C", "A"].indexOf "A" < ["B", "C", "A"].indexOf "B" ↔ "A" < "B")) ∧
    (read_dag declsPlain = .ok siblings ∧
      siblings.Acyclic ∧ siblings.Mirrored ∧ siblings.Unrelated "A" "B" ∧
      Toposorter.run siblings = .ok ["C", "B", "A"] ∧
      ¬ (["C", "B", "A"].indexOf "A" < ["C", "B", "A"].indexOf "B" ↔ "A" < "B")) :=
  ⟨⟨by decide, unstable_acyclic, by decide, unstable_unrelated, by decide, by decide⟩,
    ⟨by decide, siblings_acyclic, by decide, siblings_unrelated, by decide, by decide⟩⟩

/-- C6, amended: on an acyclic graph (a `std::map`) with mirrored edges and
referential integrity, two distinct jobs `x` and `y` each of whose direct and
transitive dependencies all have smaller ids than the job itself (jobs without
dependencies among them) come out in ascending id order: `x` precedes `y` in
the order returned by `Toposorter.run` exactly when `x < y`. -/
theorem C6_stable_for_jobs_above_their_dependencies (g : Dag) (hWF : g.WF) (hI : g.Integrity)
    (hM : g.Mirrored) (hA : g.Acyclic) (x y : String) (hx : x ∈ g.keys) (hy : y ∈ g.keys)
    (hne : x ≠ y) (hbx : g.DepsBelow x) (hby : g.DepsBelow y) :
    ∃ order, Toposorter.run g = .ok order ∧ (order.indexOf x < order.indexOf y ↔ x < y) := by
  obtain ⟨order, hrun⟩ := Toposorter.run_ok_of_acyclic g hI hM hA
  refine ⟨order, hrun, Iff.intro ?_ ?_⟩
  · intro hidx
    rcases lt_trichotomy x y with h | h | h
    · exact h
    · exact absurd h hne
    · have := Toposorter.index_lt_of_lt hWF hy hx h (Dag.depsBelow_next hM hI hby) hrun
      omega
  · intro hlt
    exact Toposorter.index_lt_of_lt hWF hx hy hlt (Dag.depsBelow_next hM hI hbx) hrun

theorem scenario1_depsBelow (x : String) (hx : x ∈ ["B", "C"]) : scenario1.DepsBelow x := by
  intro z hz
  have hz' : z ∈ ["A"] := by
    refine Dag.mem_of_transGen_dependsOn ["A"] ?_ (by decide) hz
    have h : ∀ x ∈ ["B", "C"], ∀ y ∈ scenario1.prev x, y ∈ ["A"] := by decide
    exact h x hx
  have h : ∀ x ∈ ["B", "C"], ∀ z ∈ ["A"], z < x := by decide
  exact h x hx z hz'

/-- C6 (amended) at scenario 1: `B` and `C`, both depending only on `A`, come out
in ascending order. -/
theorem C6_stable_for_jobs_above_their_dependencies_witness :
    scenario1.WF ∧ scenario1.Integrity ∧ scenario1.Mirrored ∧ scenario1.Acyclic ∧
      "B" ∈ scenario1.keys ∧ "C" ∈ scenario1.keys ∧ "B" ≠ "C" ∧
      scenario1.DepsBelow "B" ∧ scenario1.DepsBelow "C" ∧
      ∃ order, Toposorter.run scenario1 = .ok order ∧
        (order.indexOf "B" < order.indexOf "C" ↔ "B" < "C") :=
  ⟨by decide, by decide, by decide, scenario1_acyclic, by decide, by decide, by decide,
    scenario1_depsBelow "B" (by decide), scenario1_depsBelow "C" (by decide),
    C6_stable_for_jobs_above_their_dependencies scenario1 (by decide) (by decide) (by decide)
      scenario1_acyclic "B" "C" (by decide) (by decide) (by decide)
      (scenario1_depsBelow "B" (by decide)) (scenario1_depsBelow "C" (by decide))⟩

/-! ### execute_dag -/

theorem execute_dag_nil (g : Dag) (sys : String → Int) (e : Exec) :
    execute_dag g sys [] e = (e, .ok ()) := rfl

theorem execute_dag_cons_ok {g : Dag} {sys : String → Int} {id : String} (ids : List String)
    (e : Exec) (hk : id ∈ g.keys) (h : ¬ g.Fails sys id) :
    execute_dag g sys (id :: ids) e =
      execute_dag g sys ids
        { ran := e.ran ++ [g.command id],
          cerr := e.cerr ++ [reportLine id (g.command id) (sys (g.command id))] } := by
  obtain ⟨job, hf⟩ := Dag.find_of_mem_keys hk
  have hc : g.command id = job.command := by unfold Dag.command; rw [hf]
  unfold Dag.Fails at h
  rw [hc] at h ⊢
  push_neg at h
  rw [execute_dag, hf]
  simp only [h.1, h.2, if_false, beq_self_eq_true, if_true]

theorem execute_dag_cons_fail {g : Dag} {sys : String → Int} {id : String} (ids : List String)
    (e : Exec) (hk : id ∈ g.keys) (h : g.Fails sys id) :
    execute_dag g sys (id :: ids) e =
      ({ ran := e.ran ++ [g.command id],
         cerr := e.cerr ++ [reportLine id (g.command id) (sys (g.command id))] },
        .error aJobFailed) := by
  obtain ⟨job, hf⟩ := Dag.find_of_mem_keys hk
  have hc : g.command id = job.command := by unfold Dag.command; rw [hf]
  unfold Dag.Fails at h
  rw [hc] at h ⊢
  rw [execute_dag, hf]
  by_cases h1 : sys job.command = -1
  · simp only [h1, if_true, Bool.false_eq_true, if_false]
  · have h2 : WEXITSTATUS (sys job.command) ≠ 0 := by
      rcases h with h | h
      · exact absurd h h1
      · exact h
    simp only [h1, if_false, beq_iff_eq, h2]

/-- While no job fails, `execute_dag` runs the commands one after the other. -/
theorem execute_dag_prefix {g : Dag} {sys : String → Int} :
    ∀ (pre rest : List String) (e : Exec), (∀ id ∈ pre, id ∈ g.keys) →
      (∀ id ∈ pre, ¬ g.Fails sys id) →
      ∃ log, execute_dag g sys (pre ++ rest) e =
        execute_dag g sys rest { ran := e.ran ++ pre.map g.command, cerr := e.cerr ++ log }
  | [], rest, e, _, _ => ⟨[], by simp⟩
  | id :: pre, rest, e, hk, hok => by
    rw [List.cons_append,
      execute_dag_cons_ok _ e (hk id (List.mem_cons_self _ _)) (hok id (List.mem_cons_self _ _))]
    obtain ⟨log, hlog⟩ := execute_dag_prefix pre rest
      { ran := e.ran ++ [g.command id],
        cerr := e.cerr ++ [reportLine id (g.command id) (sys (g.command id))] }
      (fun x hx => hk x (List.mem_cons_of_mem _ hx))
      (fun x hx => hok x (List.mem_cons_of_mem _ hx))
    refine ⟨reportLine id (g.command id) (sys (g.command id)) :: log, ?_⟩
    rw [hlog]
    simp

theorem exists_first {p : String → Prop} :
    ∀ (l : List String), (∃ x ∈ l, p x) →
      ∃ pre f post, l = pre ++ f :: post ∧ (∀ x ∈ pre, ¬ p x) ∧ p f
  | [], h => by obtain ⟨_, hx, _⟩ := h; cases hx
  | x :: xs, h => by
    by_cases hx : p x
    · exact ⟨[], x, xs, rfl, by simp, hx⟩
    · have hxs : ∃ y ∈ xs, p y := by
        obtain ⟨y, hy, hp⟩ := h
        rcases List.mem_cons.1 hy with rfl | hy
        · exact absurd hp hx
        · exact ⟨y, hy, hp⟩
      obtain ⟨pre, f, post, hsplit, hpre, hf⟩ := exists_first xs hxs
      refine ⟨x :: pre, f, post, by rw [hsplit, List.cons_append], ?_, hf⟩
      intro y hy
      rcases List.mem_cons.1 hy with rfl | hy
      · exact hx
      · exact hpre y hy

theorem exists_first_failure {g : Dag} {sys : String → Int} (order : List String)
    (h : ∃ id ∈ order, g.Fails sys id) :
    ∃ pre f post, order = pre ++ f :: post ∧ (∀ id ∈ pre, ¬ g.Fails sys id) ∧ g.Fails sys f :=
  exists_first order h

theorem execute_dag_fail {g : Dag} {sys : String → Int} {order pre post : List String}
    {f : String} (hk : ∀ id ∈ order, id ∈ g.keys) (hsplit : order = pre ++ f :: post)
    (hpre : ∀ id ∈ pre, ¬ g.Fails sys id) (hf : g.Fails sys f) :
    (execute_dag g sys order ⟨[], []⟩).1.ran = (pre ++ [f]).map g.command ∧
      (execute_dag g sys order ⟨[], []⟩).2 = .error aJobFailed := by
  subst hsplit
  obtain ⟨log, hlog⟩ := execute_dag_prefix pre (f :: post) ⟨[], []⟩
    (fun id hid => hk id (List.mem_append_left _ hid)) hpre
  rw [hlog, execute_dag_cons_fail _ _ (hk f (by simp)) hf]
  simp

theorem execute_dag_all_ok {g : Dag} {sys : String → Int} {order : List String}
    (hk : ∀ id ∈ order, id ∈ g.keys) (hok : ∀ id ∈ order, ¬ g.Fails sys id) :
    (execute_dag g sys order ⟨[], []⟩).1.ran = order.map g.command ∧
      (execute_dag g sys order ⟨[], []⟩).2 = .ok () := by
  obtain ⟨log, hlog⟩ := execute_dag_prefix order [] ⟨[], []⟩ hk hok
  rw [List.append_nil] at hlog
  rw [hlog, execute_dag_nil]
  simp

/-- C10: for every graph, every order made of keys of the graph and every
assignment of `system()` statuses to commands: if some job of the order fails
(status `-1` or non-zero exit code), `execute_dag` runs exactly the commands of
the prefix of the order that ends at the first such job and raises
`A job failed.`; if none fails it runs every command once, in order, and
returns normally.  So it raises exactly when a failing job exists. -/
theorem C10_execute_dag_stops_at_first_failure (g : Dag) (sys : String → Int)
    (order : List String) (hk : ∀ id ∈ order, id ∈ g.keys) :
    (∀ pre f post, order = pre ++ f :: post → (∀ id ∈ pre, ¬ g.Fails sys id) →
        g.Fails sys f →
        (execute_dag g sys order ⟨[], []⟩).1.ran = (pre ++ [f]).map g.command ∧
          (execute_dag g sys order ⟨[], []⟩).2 = .error (.ordinal "A job failed.")) ∧
      ((∀ id ∈ order, ¬ g.Fails sys id) →
        (execute_dag g sys order ⟨[], []⟩).1.ran = order.map g.command ∧
          (execute_dag g sys order ⟨[], []⟩).2 = .ok ()) ∧
      ((execute_dag g sys order ⟨[], []⟩).2 = .error (.ordinal "A job failed.") ↔
        ∃ id ∈ order, g.Fails sys id) := by
  refine ⟨fun pre f post hsplit hpre hf => execute_dag_fail hk hsplit hpre hf,
    fun hok => execute_dag_all_ok hk hok, Iff.intro ?_ ?_⟩
  · intro herr
    by_contra hnone
    push_neg at hnone
    rw [(execute_dag_all_ok hk hnone).2] at herr
    cases herr
  · intro hex
    obtain ⟨pre, f, post, hsplit, hpre, hf⟩ := exists_first_failure order hex
    exact (execute_dag_fail hk hsplit hpre hf).2

/-- C10 at scenario 5: `A` exits 0 and `B` exits 1, so `a` and `b` are run, `c`
is not, and `A job failed.` is raised. -/
theorem C10_execute_dag_stops_at_first_failure_witness :
    (∀ id ∈ ["A", "B", "C"], id ∈ scenario5.keys) ∧
      (execute_dag scenario5 scenario5System ["A", "B", "C"] ⟨[], []⟩).1.ran = ["a", "b"] ∧
      (execute_dag scenario5 scenario5System ["A", "B", "C"] ⟨[], []⟩).2 =
        .error (.ordinal "A job failed.") :=
  ⟨by decide,
    (C10_execute_dag_stops_at_first_failure scenario5 scenario5System ["A", "B", "C"]
      (by decide)).1 ["A"] "B" ["C"] rfl (by decide) (by decide)⟩

/-! ### The linking loop -/

theorem Dag.keys_addNext (g : Dag) (f : String → List String) :
    (g.addNext f).keys = g.keys := by
  unfold Dag.addNext Dag.keys
  rw [List.map_map]
  rfl

theorem Dag.addNext_cons (k : String) (j : Job) (g : Dag) (f : String → List String) :
    Dag.addNext ((k, j) :: g) f =
      (k, { j with ids_next := j.ids_next ++ f k }) :: Dag.addNext g f := rfl

theorem Dag.find_addNext (g : Dag) (f : String → List String) (id : String) :
    (g.addNext f).find id =
      (g.find id).map (fun j => { j with ids_next := j.ids_next ++ f id }) := by
  induction g with
  | nil => rfl
  | cons p g ih =>
    obtain ⟨k, j⟩ := p
    rw [Dag.addNext_cons, Dag.find_cons, Dag.find_cons]
    by_cases h : id = k
    · rw [if_pos h, if_pos h, h]; rfl
    · rw [if_neg h, if_neg h, ih]

theorem Dag.addNext_addNext (g : Dag) (f h : String → List String) :
    (g.addNext f).addNext h = g.addNext (fun k => f k ++ h k) := by
  unfold Dag.addNext
  rw [List.map_map]
  apply List.map_congr_left
  intro p _
  simp only [Function.comp, List.append_assoc]

theorem Dag.addNext_congr (g : Dag) (f h : String → List String)
    (hfh : ∀ k ∈ g.keys, f k = h k) : g.addNext f = g.addNext h := by
  unfold Dag.addNext
  apply List.map_congr_left
  intro p hp
  have : p.1 ∈ g.keys := List.mem_map_of_mem Prod.fst hp
  rw [hfh p.1 this]

theorem Dag.addNext_nil_extra (g : Dag) (f : String → List String)
    (hf : ∀ k ∈ g.keys, f k = []) : g.addNext f = g := by
  rw [Dag.addNext_congr g f (fun _ => []) hf]
  unfold Dag.addNext
  conv_rhs => rw [← List.map_id g]
  apply List.map_congr_left
  intro p _
  simp only [List.append_nil, id_eq]

/-- In a map (distinct keys) `push_back` on the found entry appends to the one
entry with that key. -/
theorem Dag.pushNext_eq_addNext :
    ∀ (g : Dag), g.keys.Nodup → ∀ (key id : String),
      g.pushNext key id = g.addNext (fun k => if k = key then [id] else [])
  | [], _, _, _ => rfl
  | (k, j) :: g, hnd, key, id => by
    rw [Dag.keys_cons, List.nodup_cons] at hnd
    rw [Dag.pushNext, Dag.addNext_cons]
    by_cases h : key = k
    · rw [if_pos h, if_pos h.symm, Dag.addNext_nil_extra]
      intro x hx
      rw [if_neg]
      intro hxk
      exact hnd.1 (by rw [← h, ← hxk]; exact hx)
    · rw [if_neg h, if_neg (fun hk => h hk.symm), List.append_nil,
        Dag.pushNext_eq_addNext g hnd.2 key id]

theorem Dag.prev_addNext (g : Dag) (f : String → List String) (id : String) :
    (g.addNext f).prev id = g.prev id := by
  unfold Dag.prev
  rw [Dag.find_addNext]
  cases g.find id <;> rfl

theorem Dag.next_addNext (g : Dag) (f : String → List String) (id : String)
    (hid : id ∈ g.keys) : (g.addNext f).next id = g.next id ++ f id := by
  unfold Dag.next
  rw [Dag.find_addNext]
  obtain ⟨job, hf⟩ := Dag.find_of_mem_keys hid
  rw [hf]
  rfl

theorem forEach_append_eq {σ : Type} (body : σ → String → Except Error σ) :
    ∀ (xs ys : List String) (s : σ),
      forEach body s (xs ++ ys) =
        match forEach body s xs with
        | .error e => .error e
        | .ok s' => forEach body s' ys
  | [], _, _ => rfl
  | x :: xs, ys, s => by
    rw [List.cons_append, forEach_cons, forEach_cons]
    cases body s x with
    | error e => rfl
    | ok s1 => exact forEach_append_eq body xs ys s1

theorem linkStep_ok {a : String} {cur : Dag} {d : String} (hnd : cur.keys.Nodup)
    (hd : d ∈ cur.keys) :
    linkStep a cur d = .ok (cur.addNext (fun k => if k = d then [a] else [])) := by
  obtain ⟨job, hf⟩ := Dag.find_of_mem_keys hd
  unfold linkStep
  rw [hf, Dag.pushNext_eq_addNext cur hnd]

theorem linkStep_error {a : String} {cur : Dag} {d : String} (hd : d ∉ cur.keys) :
    linkStep a cur d = .error (dependencyNotFound a d) := by
  unfold linkStep
  cases hf : cur.find d with
  | none => rfl
  | some job => exact absurd (Dag.mem_keys_of_find hf) hd

/-- The inner loop, when every listed dependency is a key: job `a` is appended
to `d.ids_next` once per occurrence of `d` in the list. -/
theorem linkStep_loop_ok (a : String) :
    ∀ (ds : List String) (cur : Dag), cur.keys.Nodup → (∀ d ∈ ds, d ∈ cur.keys) →
      forEach (linkStep a) cur ds =
        .ok (cur.addNext (fun k => List.replicate (ds.count k) a))
  | [], cur, _, _ => by
    rw [forEach_nil, Dag.addNext_nil_extra]
    intro k _
    rfl
  | d :: ds, cur, hnd, hds => by
    rw [forEach_cons, linkStep_ok hnd (hds d (List.mem_cons_self _ _))]
    simp only
    rw [linkStep_loop_ok a ds _ (by rw [Dag.keys_addNext]; exact hnd)
      (fun x hx => by rw [Dag.keys_addNext]; exact hds x (List.mem_cons_of_mem _ hx)),
      Dag.addNext_addNext]
    congr 1
    apply Dag.addNext_congr
    intro k _
    rw [List.count_cons]
    by_cases hk : k = d
    · subst hk
      simp [List.replicate_succ]
    · have : (d == k) = false := by simpa using fun h => hk h.symm
      simp [hk, this]

/-- The inner loop, when some listed dependency is not a key: it throws at the
first such dependency. -/
theorem linkStep_loop_error (a : String) (pre : List String) (d : String)
    (post : List String) (cur : Dag) (hnd : cur.keys.Nodup) (hpre : ∀ x ∈ pre, x ∈ cur.keys)
    (hd : d ∉ cur.keys) :
    forEach (linkStep a) cur (pre ++ d :: post) = .error (dependencyNotFound a d) := by
  rw [forEach_append_eq, linkStep_loop_ok a pre cur hnd hpre]
  simp only
  rw [forEach_cons, linkStep_error (by rw [Dag.keys_addNext]; exact hd)]

theorem Dag.IdIsKey.addNext {g : Dag} (h : g.IdIsKey) (f : String → List String) :
    (g.addNext f).IdIsKey := by
  intro k job hf
  rw [Dag.find_addNext] at hf
  cases hg : g.find k with
  | none => rw [hg] at hf; cases hf
  | some j =>
    rw [hg] at hf
    simp only [Option.map_some', Option.some.injEq] at hf
    rw [← hf]
    exact h k j hg

theorem linkJob_eq {cur : Dag} {k : String} (hid : cur.IdIsKey) (hk : k ∈ cur.keys) :
    linkJob cur k = forEach (linkStep k) cur (cur.prev k) := by
  obtain ⟨job, hf⟩ := Dag.find_of_mem_keys hk
  unfold linkJob
  rw [hf, Dag.prev_of_find hf]
  simp only
  rw [hid k job hf]

theorem Dag.dependents_addNext (g : Dag) (f : String → List String) (ks : List String)
    (b : String) : (g.addNext f).dependents ks b = g.dependents ks b := by
  unfold Dag.dependents
  simp only [Dag.prev_addNext]

/-- The outer loop over the jobs `ks`, when all their dependencies are keys. -/
theorem linkJob_loop_ok :
    ∀ (ks : List String) (cur : Dag), cur.keys.Nodup → cur.IdIsKey →
      (∀ k ∈ ks, k ∈ cur.keys) → (∀ k ∈ ks, ∀ d ∈ cur.prev k, d ∈ cur.keys) →
      forEach linkJob cur ks = .ok (cur.addNext (cur.dependents ks))
  | [], cur, _, _, _, _ => by
    rw [forEach_nil, Dag.addNext_nil_extra]
    intro k _
    rfl
  | k :: ks, cur, hnd, hid, hks, hdeps => by
    rw [forEach_cons, linkJob_eq hid (hks k (List.mem_cons_self _ _)),
      linkStep_loop_ok k (cur.prev k) cur hnd (hdeps k (List.mem_cons_self _ _))]
    simp only
    rw [linkJob_loop_ok ks _ (by rw [Dag.keys_addNext]; exact hnd) (hid.addNext _)
      (fun x hx => by rw [Dag.keys_addNext]; exact hks x (List.mem_cons_of_mem _ hx))
      (fun x hx d hd => by
        rw [Dag.keys_addNext]
        rw [Dag.prev_addNext] at hd
        exact hdeps x (List.mem_cons_of_mem _ hx) d hd),
      Dag.addNext_addNext]
    congr 1
    apply Dag.addNext_congr
    intro b _
    rw [Dag.dependents_addNext]
    unfold Dag.dependents
    rw [List.flatMap_cons]

/-- The outer loop throws at the first job that lists a dependency that is not a
key, naming that job and its first such dependency. -/
theorem linkJob_loop_error (pre : List String) (k : String) (post : List String) (cur : Dag)
    (hnd : cur.keys.Nodup) (hid : cur.IdIsKey) (hpre : ∀ x ∈ pre, x ∈ cur.keys)
    (hk : k ∈ cur.keys) (hdeps : ∀ x ∈ pre, ∀ d ∈ cur.prev x, d ∈ cur.keys)
    (dpre : List String) (d : String) (dpost : List String)
    (hsplit : cur.prev k = dpre ++ d :: dpost) (hdpre : ∀ x ∈ dpre, x ∈ cur.keys)
    (hd : d ∉ cur.keys) :
    forEach linkJob cur (pre ++ k :: post) = .error (dependencyNotFound k d) := by
  rw [forEach_append_eq, linkJob_loop_ok pre cur hnd hid hpre hdeps]
  simp only
  rw [forEach_cons, linkJob_eq (hid.addNext _) (by rw [Dag.keys_addNext]; exact hk),
    Dag.prev_addNext, hsplit,
    linkStep_loop_error k dpre d dpost _ (by rw [Dag.keys_addNext]; exact hnd)
      (by rw [Dag.keys_addNext]; exact hdpre) (by rw [Dag.keys_addNext]; exact hd)]

/-! ### Repeated successors do not change the sort -/

theorem forEach_replicate {σ : Type} {body : σ → String → Except Error σ}
    (hidem : ∀ s x s', body s x = .ok s' → body s' x = .ok s') (x : String)
    (rest : List String) :
    ∀ (n : Nat) (s : σ),
      forEach body s (List.replicate (n + 1) x ++ rest) = forEach body s (x :: rest)
  | 0, s => by simp [List.replicate]
  | n + 1, s => by
    rw [List.replicate_succ, List.cons_append, forEach_cons, forEach_cons]
    cases hx : body s x with
    | error e => rfl
    | ok s1 =>
      simp only
      rw [forEach_replicate hidem x rest n s1, forEach_cons, hidem s x s1 hx]

theorem forEach_flatMap_replicate {σ : Type} {body : σ → String → Except Error σ}
    (hidem : ∀ s x s', body s x = .ok s' → body s' x = .ok s') (c : String → Nat) :
    ∀ (ks : List String) (s : σ),
      forEach body s (ks.flatMap (fun k => List.replicate (c k) k)) =
        forEach body s (ks.filter (fun k => decide (c k ≠ 0)))
  | [], _ => rfl
  | k :: ks, s => by
    rw [List.flatMap_cons]
    by_cases hk : c k = 0
    · rw [hk, List.replicate_zero, List.nil_append, List.filter_cons_of_neg (by simp [hk])]
      exact forEach_flatMap_replicate hidem c ks s
    · obtain ⟨n, hn⟩ := Nat.exists_eq_succ_of_ne_zero hk
      rw [hn, forEach_replicate hidem, List.filter_cons_of_pos (by simp [hn]), forEach_cons,
        forEach_cons]
      cases body s k with
      | error e => rfl
      | ok s1 => exact forEach_flatMap_replicate hidem c ks s1

theorem Toposorter.visit_idem (g : Dag) (fuel : Nat) (t : Toposorter) (id : String)
    (t' : Toposorter) (h : Toposorter.visit g fuel t id = .ok t') :
    Toposorter.visit g fuel t' id = .ok t' := by
  cases fuel with
  | zero => rw [Toposorter.visit_zero] at h; cases h
  | succ fuel =>
    have hmem : id ∈ t'.marks_permanent := by
      rw [Toposorter.visit_succ] at h
      by_cases hp : id ∈ t.marks_permanent
      · rw [if_pos hp] at h; cases h; exact hp
      rw [if_neg hp] at h
      by_cases ht : id ∈ t.marks_temporary
      · rw [if_pos ht] at h; cases h
      rw [if_neg ht] at h
      cases hf : g.find id with
      | none => rw [hf] at h; cases h
      | some job =>
        rw [hf] at h
        simp only at h
        cases hl : forEach (fun s id_next => Toposorter.visit g fuel s id_next)
            { t with marks_temporary := t.marks_temporary.insert id } job.ids_next with
        | error e => rw [hl] at h; cases h
        | ok t2 =>
          rw [hl] at h
          simp only [Except.ok.injEq] at h
          rw [← h]
          simp only [List.mem_insert_iff, true_or]
    rw [Toposorter.visit_succ, if_pos hmem]

theorem Dag.find_eq_none_of_not_mem {g : Dag} {id : String} (h : id ∉ g.keys) :
    g.find id = none := by
  cases hf : g.find id with
  | none => rfl
  | some job => exact absurd (Dag.mem_keys_of_find hf) h

/-- The visit does the same on two graphs with the same successors. -/
theorem Toposorter.visit_congr {g1 g2 : Dag} (h : SameSuccessors g1 g2) :
    ∀ (fuel : Nat) (t : Toposorter) (id : String),
      Toposorter.visit g1 fuel t id = Toposorter.visit g2 fuel t id
  | 0, _, _ => rfl
  | fuel + 1, t, id => by
    rw [Toposorter.visit_succ, Toposorter.visit_succ]
    have hbody : (fun s id_next => Toposorter.visit g1 fuel s id_next) =
        (fun s id_next => Toposorter.visit g2 fuel s id_next) := by
      funext s x
      exact Toposorter.visit_congr h fuel s x
    by_cases hk : id ∈ g1.keys
    · obtain ⟨j1, hf1⟩ := Dag.find_of_mem_keys hk
      obtain ⟨j2, hf2⟩ := Dag.find_of_mem_keys (h.keys ▸ hk)
      obtain ⟨ks, c1, c2, h1, h2, hc⟩ := h.next id hk
      rw [Dag.next_of_find hf1] at h1
      rw [Dag.next_of_find hf2] at h2
      rw [hf1, hf2]
      simp only
      rw [hbody, h1, h2,
        forEach_flatMap_replicate (fun s x s' => Toposorter.visit_idem g2 fuel s x s') c1,
        forEach_flatMap_replicate (fun s x s' => Toposorter.visit_idem g2 fuel s x s') c2]
      have hfilter : ks.filter (fun k => decide (c1 k ≠ 0)) =
          ks.filter (fun k => decide (c2 k ≠ 0)) := by
        apply List.filter_congr
        intro k hkk
        have := hc k hkk
        by_cases h0 : c1 k = 0
        · simp [h0, this.1 h0]
        · have h0' : ¬ c2 k = 0 := fun h2 => h0 (this.2 h2)
          simp [h0, h0']
      rw [hfilter]
    · rw [Dag.find_eq_none_of_not_mem hk, Dag.find_eq_none_of_not_mem (h.keys ▸ hk)]

/-- The sorter returns the same on two graphs with the same successors. -/
theorem Toposorter.run_congr {g1 g2 : Dag} (h : SameSuccessors g1 g2) :
    Toposorter.run g1 = Toposorter.run g2 := by
  have hlen : g1.length = g2.length := by
    have := congrArg List.length h.keys
    simpa [Dag.keys] using this
  have hstep : Toposorter.runStep g1 (g1.length + 1) = Toposorter.runStep g2 (g2.length + 1) := by
    funext t id
    unfold Toposorter.runStep
    rw [hlen, Toposorter.visit_congr h]
  unfold Toposorter.run
  rw [Toposorter.runFuel_new, Toposorter.runFuel_new, hstep, h.keys]

/-! ### What read_dag builds -/

theorem keys_parse (d : Decls) : (parse d).keys = d.ids := by
  unfold parse Dag.keys Decls.ids
  rw [List.map_map]
  rfl

theorem parse_cons (k : String) (v : Decl) (d : Decls) :
    parse ((k, v) :: d) =
      (k, { id := k, command := v.command, ids_prev := v.deps, ids_next := [] }) :: parse d :=
  rfl

theorem parse_find {d : Decls} {k : String} {job : Job} :
    (parse d).find k = some job → job.id = k ∧ job.ids_next = [] := by
  induction d with
  | nil => intro h; cases h
  | cons p d ih =>
    obtain ⟨k', v⟩ := p
    rw [parse_cons, Dag.find_cons]
    by_cases h : k = k'
    · rw [if_pos h]
      intro hj
      simp only [Option.some.injEq] at hj
      rw [← hj, h]
      exact ⟨rfl, rfl⟩
    · rw [if_neg h]; exact ih

theorem parse_idIsKey (d : Decls) : (parse d).IdIsKey :=
  fun _ _ h => (parse_find h).1

theorem next_parse (d : Decls) (id : String) : (parse d).next id = [] := by
  unfold Dag.next
  cases hf : (parse d).find id with
  | none => rfl
  | some job => exact (parse_find hf).2

theorem Decls.WF.nodup_ids {d : Decls} (h : d.WF) : d.ids.Nodup :=
  List.Pairwise.imp (fun hab => ne_of_lt hab) h

/-- On a closed input the linking loop succeeds and builds `linked`. -/
theorem read_dag_ok {d : Decls} (hWF : d.WF) (hC : d.Closed) : read_dag d = .ok (linked d) := by
  unfold read_dag link linked
  apply linkJob_loop_ok
  · rw [keys_parse]; exact hWF.nodup_ids
  · exact parse_idIsKey d
  · exact fun k hk => hk
  · intro k hk x hx
    rw [keys_parse] at hk ⊢
    exact hC k hk x hx

/-- On an input that is not closed the linking loop throws: the message names
the first job, in id order, that lists an undeclared dependency, and the first
such dependency in its list. -/
theorem read_dag_error {d : Decls} (hWF : d.WF) (hC : ¬ d.Closed) :
    ∃ pre k post dpre x dpost, d.ids = pre ++ k :: post ∧
      (∀ j ∈ pre, ∀ y ∈ d.deps j, y ∈ d.ids) ∧
      d.deps k = dpre ++ x :: dpost ∧ (∀ y ∈ dpre, y ∈ d.ids) ∧ x ∉ d.ids ∧
      read_dag d = .error (dependencyNotFound k x) := by
  have hex : ∃ k ∈ d.ids, ∃ x ∈ d.deps k, x ∉ d.ids := by
    by_contra hcon
    push_neg at hcon
    exact hC hcon
  obtain ⟨pre, k, post, hsplit, hpre, hk⟩ := exists_first d.ids hex
  obtain ⟨dpre, x, dpost, hdsplit, hdpre, hx⟩ := exists_first (d.deps k) hk
  have hpre' : ∀ j ∈ pre, ∀ y ∈ d.deps j, y ∈ d.ids := by
    intro j hj y hy
    by_contra hcon
    exact hpre j hj ⟨y, hy, hcon⟩
  have hdpre' : ∀ y ∈ dpre, y ∈ d.ids := by
    intro y hy
    by_contra hcon
    exact hdpre y hy hcon
  refine ⟨pre, k, post, dpre, x, dpost, hsplit, hpre', hdsplit, hdpre', hx, ?_⟩
  unfold read_dag link
  rw [keys_parse, hsplit]
  have hkeys : (parse d).keys = pre ++ k :: post := by rw [keys_parse, hsplit]
  apply linkJob_loop_error pre k post (parse d) (by rw [keys_parse]; exact hWF.nodup_ids)
    (parse_idIsKey d) (by rw [hkeys]; exact fun y hy => List.mem_append_left _ hy)
    (by rw [hkeys]; simp) (by rw [keys_parse]; exact hpre') dpre x dpost hdsplit
    (by rw [keys_parse]; exact hdpre') (by rw [keys_parse]; exact hx)

theorem keys_linked (d : Decls) : (linked d).keys = d.ids := by
  unfold linked
  rw [Dag.keys_addNext, keys_parse]

theorem prev_linked (d : Decls) (id : String) : (linked d).prev id = d.deps id := by
  unfold linked Decls.deps
  rw [Dag.prev_addNext]

theorem next_linked (d : Decls) {id : String} (hid : id ∈ d.ids) :
    (linked d).next id = d.ids.flatMap (fun k => List.replicate ((d.deps k).count id) k) := by
  unfold linked
  rw [Dag.next_addNext _ _ _ (by rw [keys_parse]; exact hid), next_parse, List.nil_append,
    keys_parse]
  rfl

theorem mem_next_linked (d : Decls) {a b : String} (hb : b ∈ d.ids) :
    a ∈ (linked d).next b ↔ a ∈ d.ids ∧ b ∈ d.deps a := by
  rw [next_linked d hb, List.mem_flatMap]
  constructor
  · rintro ⟨k, hk, hak⟩
    obtain ⟨hcount, rfl⟩ := List.mem_replicate.1 hak
    exact ⟨hk, List.count_pos_iff.1 (Nat.pos_of_ne_zero hcount)⟩
  · rintro ⟨ha, hba⟩
    exact ⟨a, ha, List.mem_replicate.2 ⟨Nat.ne_of_gt (List.count_pos_iff.2 hba), rfl⟩⟩

theorem linked_wf {d : Decls} (h : d.WF) : (linked d).WF := by
  unfold Dag.WF
  rw [keys_linked]
  exact h

theorem linked_mirrored (d : Decls) : (linked d).Mirrored := by
  intro a ha b hb
  rw [keys_linked] at ha hb
  rw [mem_next_linked d hb, prev_linked]
  exact ⟨fun h => h.2, fun h => ⟨ha, h⟩⟩

theorem linked_integrity {d : Decls} (hC : d.Closed) : (linked d).Integrity := by
  intro a ha
  rw [keys_linked] at ha ⊢
  refine ⟨fun b hb => ((mem_next_linked d ha).1 hb).1, fun b hb => ?_⟩
  rw [prev_linked] at hb
  exact hC a ha b hb

theorem Decls.deps_eq_nil_of_not_mem (d : Decls) {id : String} (h : id ∉ d.ids) :
    d.deps id = [] := by
  unfold Decls.deps Dag.prev
  rw [Dag.find_eq_none_of_not_mem (by rw [keys_parse]; exact h)]

theorem SameEdges.mem_deps {d1 d2 : Decls} (h : SameEdges d1 d2) (id x : String) :
    x ∈ d1.deps id ↔ x ∈ d2.deps id := by
  by_cases hid : id ∈ d1.ids
  · exact ⟨(h.2 id hid).1 x, (h.2 id hid).2 x⟩
  · rw [Decls.deps_eq_nil_of_not_mem d1 hid,
      Decls.deps_eq_nil_of_not_mem d2 (by rw [← h.1]; exact hid)]

theorem SameEdges.closed {d1 d2 : Decls} (h : SameEdges d1 d2) (hC : d1.Closed) : d2.Closed := by
  intro id hid x hx
  rw [← h.1] at hid ⊢
  exact hC id hid x ((h.mem_deps id x).2 hx)

theorem SameEdges.swap {d1 d2 : Decls} (h : SameEdges d1 d2) : SameEdges d2 d1 :=
  ⟨h.1.symm, fun id hid => ⟨(h.2 id (by rw [h.1]; exact hid)).2,
    (h.2 id (by rw [h.1]; exact hid)).1⟩⟩

theorem SameEdges.sameSuccessors {d1 d2 : Decls} (h : SameEdges d1 d2) :
    SameSuccessors (linked d1) (linked d2) := by
  refine ⟨by rw [keys_linked, keys_linked, h.1], ?_⟩
  intro id hid
  rw [keys_linked] at hid
  refine ⟨d1.ids, fun k => (d1.deps k).count id, fun k => (d2.deps k).count id,
    next_linked d1 hid, ?_, ?_⟩
  · rw [next_linked d2 (by rw [← h.1]; exact hid), h.1]
  · intro k _
    rw [List.count_eq_zero, List.count_eq_zero, h.mem_deps k id]

theorem SameEdges.step_iff {d1 d2 : Decls} (h : SameEdges d1 d2) (a b : String) :
    (linked d1).Step a b ↔ (linked d2).Step a b := by
  have hnext : ∀ (d : Decls) (a b : String),
      (linked d).Next a b ↔ a ∈ d.ids ∧ b ∈ d.ids ∧ a ∈ d.deps b := by
    intro d a b
    unfold Dag.Next
    constructor
    · intro hab
      have ha : a ∈ d.ids := by rw [← keys_linked]; exact Dag.mem_keys_of_next hab
      exact ⟨ha, (mem_next_linked d ha).1 hab⟩
    · rintro ⟨ha, hb, hab⟩
      exact (mem_next_linked d ha).2 ⟨hb, hab⟩
  unfold Dag.Step
  rw [hnext d1, hnext d2]
  unfold Dag.DependsOn
  rw [prev_linked, prev_linked, h.mem_deps a b, h.mem_deps b a, h.1]

theorem SameEdges.connected_iff {d1 d2 : Decls} (h : SameEdges d1 d2) :
    (linked d1).Connected ↔ (linked d2).Connected := by
  have key : ∀ (e1 e2 : Decls), SameEdges e1 e2 → (linked e1).Connected →
      (linked e2).Connected := by
    intro e1 e2 he hc a ha b hb
    rw [keys_linked, ← he.1, ← keys_linked] at ha hb
    refine Relation.ReflTransGen.mono ?_ (hc a ha b hb)
    intro x y hxy
    rcases hxy with hxy | hxy
    · exact Or.inl ((he.step_iff x y).1 hxy)
    · exact Or.inr ((he.step_iff y x).1 hxy)
  exact ⟨key d1 d2 h, key d2 d1 h.swap⟩

theorem Dag.eq_nil_of_keys_eq_nil {g : Dag} (h : g.keys = []) : g = [] := by
  unfold Dag.keys at h
  exact List.map_eq_nil_iff.1 h

/-- On closed inputs with the same edges, `preprocess_dag` gives the same result
on the two graphs that the linking loop builds. -/
theorem preprocess_dag_linked_congr {d1 d2 : Decls} (hWF : d1.WF) (hS : SameEdges d1 d2)
    (hC : d1.Closed) : preprocess_dag (linked d1) = preprocess_dag (linked d2) := by
  have hWF2 : d2.WF := by unfold Decls.WF; rw [← hS.1]; exact hWF
  by_cases hne : linked d1 = []
  · have h2 : linked d2 = [] := by
      apply Dag.eq_nil_of_keys_eq_nil
      rw [keys_linked, ← hS.1, ← keys_linked, hne]
      rfl
    rw [hne, h2]
  · have hne2 : linked d2 ≠ [] := by
      intro h2
      apply hne
      apply Dag.eq_nil_of_keys_eq_nil
      rw [keys_linked, hS.1, ← keys_linked, h2]
      rfl
    rw [preprocess_dag_of_ne_nil hne, preprocess_dag_of_ne_nil hne2,
      Toposorter.run_congr hS.sameSuccessors,
      @Componenter.run_eq _ hne (linked_wf hWF) (linked_integrity hC) (linked_mirrored d1)
        (Classical.propDecidable _),
      @Componenter.run_eq _ hne2 (linked_wf hWF2) (linked_integrity (hS.closed hC))
        (linked_mirrored d2) (Classical.propDecidable _)]
    by_cases hc : (linked d1).Connected
    · rw [if_pos hc, if_pos (hS.connected_iff.1 hc)]
    · rw [if_neg hc, if_neg (fun h => hc (hS.connected_iff.2 h))]

theorem read_and_preprocess_ok {d : Decls} (hWF : d.WF) (hC : d.Closed) :
    read_and_preprocess d = preprocess_dag (linked d) := by
  unfold read_and_preprocess
  rw [read_dag_ok hWF hC]

/-- The first job with an undeclared dependency is the same in two inputs with
the same edges. -/
theorem first_open_job_unique {ids pre1 post1 pre2 post2 : List String} {k1 k2 : String}
    {p : String → Prop} (hpw : ids.Pairwise (· < ·)) (h1 : ids = pre1 ++ k1 :: post1)
    (h2 : ids = pre2 ++ k2 :: post2) (hpre1 : ∀ j ∈ pre1, ¬ p j) (hpre2 : ∀ j ∈ pre2, ¬ p j)
    (hk1 : p k1) (hk2 : p k2) : k1 = k2 := by
  have hmem2 : k2 ∈ pre1 ++ k1 :: post1 := by rw [← h1, h2]; simp
  have hmem1 : k1 ∈ pre2 ++ k2 :: post2 := by rw [← h2, h1]; simp
  have hp1 := hpw
  rw [h1, List.pairwise_append, List.pairwise_cons] at hp1
  have hp2 := hpw
  rw [h2, List.pairwise_append, List.pairwise_cons] at hp2
  rcases List.mem_append.1 hmem2 with h | h
  · exact absurd hk2 (hpre1 k2 h)
  rcases List.mem_cons.1 h with h | h
  · exact h.symm
  rcases List.mem_append.1 hmem1 with h' | h'
  · exact absurd hk1 (hpre2 k1 h')
  rcases List.mem_cons.1 h' with h' | h'
  · exact h'
  exact absurd (hp1.2.1.1 k2 h) (lt_asymm (hp2.2.1.1 k1 h'))

/-- C9, as stated, fails: `{A: deps=[X, Y]}` and `{A: deps=[Y, X]}` have the same
ids and the same dependency sets, but the linking loop reports the first
undeclared dependency in list order, so the two errors differ. -/
theorem C9_determinism_counterexample :
    missingXY.WF ∧ SameEdges missingXY missingYX ∧
      read_and_preprocess missingXY = .error (.ordinal "Job A: dependency not found: X") ∧
      read_and_preprocess missingYX = .error (.ordinal "Job A: dependency not found: Y") ∧
      read_and_preprocess missingXY ≠ read_and_preprocess missingYX := by
  decide

/-- C9, amended: for two inputs with the same ids (ascending, as the items of a
JSON object) and, job by job, the same set of dependency ids: when every
listed dependency is a declared id, linking and `preprocess_dag` yield the same
result (the same order or the same error); otherwise both stop in the linking
loop with a `dependency not found` error for the same job, in which the named
dependency may differ. -/
theorem C9_same_edges_same_result (d1 d2 : Decls) (hWF : d1.WF) (hS : SameEdges d1 d2) :
    (d1.Closed → read_and_preprocess d1 = read_and_preprocess d2) ∧
      (¬ d1.Closed → ∃ k x1 x2,
        read_and_preprocess d1 = .error (dependencyNotFound k x1) ∧
        read_and_preprocess d2 = .error (dependencyNotFound k x2)) := by
  have hWF2 : d2.WF := by unfold Decls.WF; rw [← hS.1]; exact hWF
  constructor
  · intro hC
    rw [read_and_preprocess_ok hWF hC, read_and_preprocess_ok hWF2 (hS.closed hC)]
    exact preprocess_dag_linked_congr hWF hS hC
  · intro hC
    obtain ⟨pre1, k1, post1, dpre1, x1, dpost1, hs1, hp1, hd1, _, hx1, he1⟩ :=
      read_dag_error hWF hC
    obtain ⟨pre2, k2, post2, dpre2, x2, dpost2, hs2, hp2, hd2, _, hx2, he2⟩ :=
      read_dag_error hWF2 (fun h => hC (hS.swap.closed h))
    have hk : k1 = k2 := by
      apply first_open_job_unique (p := fun j => ∃ y ∈ d1.deps j, y ∉ d1.ids) hWF hs1
        (by rw [hS.1]; exact hs2)
      · rintro j hj ⟨y, hy, hyn⟩
        exact hyn (hp1 j hj y hy)
      · rintro j hj ⟨y, hy, hyn⟩
        rw [hS.1] at hyn
        exact hyn (hp2 j hj y ((hS.mem_deps j y).1 hy))
      · exact ⟨x1, by rw [hd1]; simp, hx1⟩
      · refine ⟨x2, (hS.mem_deps k2 x2).2 (by rw [hd2]; simp), ?_⟩
        rw [hS.1]
        exact hx2
    refine ⟨k1, x1, x2, ?_, ?_⟩
    · unfold read_and_preprocess; rw [he1]
    · unfold read_and_preprocess; rw [he2, hk]

/-- C9 (amended) at `{A: deps=[C, C], B: deps=[C], C: deps=[]}` against
`{A: deps=[C], B: deps=[C], C: deps=[]}`: both give `[C, B, A]`. -/
theorem C9_same_edges_same_result_witness :
    declsRepeated.WF ∧ SameEdges declsRepeated declsPlain ∧ declsRepeated.Closed ∧
      read_and_preprocess declsRepeated = read_and_preprocess declsPlain ∧
      read_and_preprocess declsPlain = .ok ["C", "B", "A"] :=
  ⟨by decide, by decide, by decide,
    (C9_same_edges_same_result declsRepeated declsPlain (by decide) (by decide)).1 (by decide),
    by decide⟩

/-! ### The recursion budget does not matter -/

theorem forEach_mono {σ : Type} {a b : σ → String → Except Error σ}
    (h : ∀ s x r, a s x = r → r ≠ .error .fuel → b s x = r) :
    ∀ (xs : List String) (s : σ) (r : Except Error σ),
      forEach a s xs = r → r ≠ .error .fuel → forEach b s xs = r
  | [], _, _, hr, _ => hr
  | x :: xs, s, r, hr, hne => by
    rw [forEach_cons] at hr ⊢
    cases hx : a s x with
    | error e =>
      rw [hx] at hr
      simp only at hr
      rw [h s x _ hx (by rw [hr]; exact hne)]
      exact hr
    | ok s1 =>
      rw [hx] at hr
      simp only at hr
      rw [h s x _ hx (by intro hc; cases hc)]
      exact forEach_mono h xs s1 r hr hne

/-- A visit that ends otherwise than by exhausting its budget ends the same way
with a larger budget. -/
theorem Toposorter.visit_fuel_succ (g : Dag) :
    ∀ (fuel : Nat) (t : Toposorter) (id : String) (r : Except Error Toposorter),
      Toposorter.visit g fuel t id = r → r ≠ .error .fuel →
      Toposorter.visit g (fuel + 1) t id = r
  | 0, _, _, r, hr, hne => by
    rw [Toposorter.visit_zero] at hr
    exact absurd hr.symm hne
  | fuel + 1, t, id, r, hr, hne => by
    rw [Toposorter.visit_succ] at hr ⊢
    by_cases hp : id ∈ t.marks_permanent
    · rw [if_pos hp] at hr ⊢; exact hr
    rw [if_neg hp] at hr ⊢
    by_cases ht : id ∈ t.marks_temporary
    · rw [if_pos ht] at hr ⊢; exact hr
    rw [if_neg ht] at hr ⊢
    cases hf : g.find id with
    | none => rw [hf] at hr; exact hr
    | some job =>
      rw [hf] at hr
      simp only at hr ⊢
      have hloop := forEach_mono
        (a := fun s id_next => Toposorter.visit g fuel s id_next)
        (b := fun s id_next => Toposorter.visit g (fuel + 1) s id_next)
        (fun s x r => Toposorter.visit_fuel_succ g fuel s x r) job.ids_next
        { t with marks_temporary := t.marks_temporary.insert id }
      cases hl : forEach (fun s id_next => Toposorter.visit g fuel s id_next)
          { t with marks_temporary := t.marks_temporary.insert id } job.ids_next with
      | error e =>
        rw [hl] at hr
        simp only at hr
        rw [hloop _ hl (by rw [hr]; exact hne)]
        exact hr
      | ok t2 =>
        rw [hl] at hr
        rw [hloop _ hl (by intro hc; cases hc)]
        exact hr

/-- A run that ends otherwise than by exhausting its budget ends the same way
with a larger budget. -/
theorem Toposorter.runFuel_succ (g : Dag) (fuel : Nat) (r : Except Error (List String))
    (hr : Toposorter.runFuel g fuel Toposorter.new = r) (hne : r ≠ .error .fuel) :
    Toposorter.runFuel g (fuel + 1) Toposorter.new = r := by
  rw [Toposorter.runFuel_new] at hr ⊢
  have hloop := forEach_mono (a := Toposorter.runStep g fuel)
    (b := Toposorter.runStep g (fuel + 1)) (by
      intro s x r hr hne
      unfold Toposorter.runStep at hr ⊢
      by_cases hp : x ∈ s.marks_permanent
      · rw [if_pos hp] at hr ⊢; exact hr
      · rw [if_neg hp] at hr ⊢
        exact Toposorter.visit_fuel_succ g fuel s x r hr hne) g.keys.reverse
    { is_used := true, marks_permanent := [], marks_temporary := [], ids_ordered := [] }
  cases hl : forEach (Toposorter.runStep g fuel)
      { is_used := true, marks_permanent := [], marks_temporary := [], ids_ordered := [] }
      g.keys.reverse with
  | error e =>
    rw [hl] at hr
    simp only at hr
    rw [hloop _ hl (by
      intro hc
      cases hc
      exact hne hr.symm)]
    exact hr
  | ok t2 =>
    rw [hl] at hr
    rw [hloop _ hl (by intro hc; cases hc)]
    exact hr

/-- The budget `Toposorter.run` supplies is enough: when every successor is a
key, any larger budget gives the same result. -/
theorem Toposorter.runFuel_eq_run (g : Dag) (hN : g.NextClosed) :
    ∀ (k : Nat), Toposorter.runFuel g (g.length + 1 + k) Toposorter.new = Toposorter.run g
  | 0 => rfl
  | k + 1 => by
    have ih := Toposorter.runFuel_eq_run g hN k
    refine Toposorter.runFuel_succ g (g.length + 1 + k) _ ih ?_
    intro hc
    obtain ⟨he, _⟩ := Toposorter.runFuel_error hN (Nat.lt_succ_self _) hc
    cases he

/-! ### The example graphs are what the loader builds -/

theorem examples_are_loaded :
    read_dag declsScenario1 = .ok scenario1 ∧ read_dag declsUnstable = .ok unstable ∧
      read_dag declsPlain = .ok siblings := by
  decide

/-- A component visit that ends otherwise than by exhausting its budget ends the
same way with a larger budget. -/
theorem Componenter.cvisit_fuel_succ (g : Dag) :
    ∀ (fuel : Nat) (c : Componenter) (id : String) (r : Except Error Componenter),
      Componenter.visit g fuel c id = r → r ≠ .error .fuel →
      Componenter.visit g (fuel + 1) c id = r
  | 0, _, _, r, hr, hne => by
    rw [Componenter.cvisit_zero] at hr
    exact absurd hr.symm hne
  | fuel + 1, c, id, r, hr, hne => by
    rw [Componenter.cvisit_succ] at hr ⊢
    by_cases hv : id ∈ c.ids_visited
    · rw [if_pos hv] at hr ⊢; exact hr
    rw [if_neg hv] at hr ⊢
    cases hf : g.find id with
    | none => rw [hf] at hr; exact hr
    | some job =>
      rw [hf] at hr
      simp only at hr ⊢
      have hloop := forEach_mono
        (a := fun s y => Componenter.visit g fuel s y)
        (b := fun s y => Componenter.visit g (fuel + 1) s y)
        (fun s x r => Componenter.cvisit_fuel_succ g fuel s x r)
      cases hl : forEach (fun s id_next => Componenter.visit g fuel s id_next)
          { c with ids_visited := c.ids_visited.insert id } job.ids_next with
      | error e =>
        rw [hl] at hr
        simp only at hr
        rw [hloop _ _ _ hl (by rw [hr]; exact hne)]
        exact hr
      | ok c2 =>
        rw [hl] at hr
        simp only at hr
        rw [hloop _ _ _ hl (by intro hc; cases hc)]
        exact hloop _ _ _ hr hne

/-- The budget `Componenter.run` supplies is enough: with referential integrity
any larger budget gives the same result. -/
theorem Componenter.crunFuel_eq_run (g : Dag) (hI : g.Integrity) :
    ∀ (k : Nat), Componenter.runFuel g (g.length + 1 + k) Componenter.new = Componenter.run g
  | 0 => rfl
  | k + 1 => by
    have ih := Componenter.crunFuel_eq_run g hI k
    rw [← ih]
    cases g with
    | nil => rfl
    | cons p rest =>
      obtain ⟨first, job⟩ := p
      have hk : first ∈ Dag.keys ((first, job) :: rest) := List.mem_cons_self _ _
      cases hv : Componenter.visit ((first, job) :: rest)
          (((first, job) :: rest).length + 1 + k) { is_used := true, ids_visited := [] }
          first with
      | error e =>
        exact absurd hv (Componenter.visit_no_error _ hI _ _ first e hk
          (lt_of_le_of_lt (Componenter.unvisited_le_length _ _) (by omega)))
      | ok c' =>
        have hv' := Componenter.cvisit_fuel_succ _ _ _ _ _ hv (by intro hc; cases hc)
        show (match Componenter.visit ((first, job) :: rest)
            (((first, job) :: rest).length + 1 + (k + 1)) { is_used := true, ids_visited := [] }
            first with
          | .error e => Except.error e
          | .ok c' =>
            if c'.ids_visited.length < ((first, job) :: rest).length then
              Except.error (Error.ordinal "More than one component.")
            else Except.ok ()) =
          (match Componenter.visit ((first, job) :: rest)
            (((first, job) :: rest).length + 1 + k) { is_used := true, ids_visited := [] }
            first with
          | .error e => Except.error e
          | .ok c' =>
            if c'.ids_visited.length < ((first, job) :: rest).length then
              Except.error (Error.ordinal "More than one component.")
            else Except.ok ())
        rw [hv]
        rw [show ((first, job) :: rest).length + 1 + (k + 1) =
          ((first, job) :: rest).length + 1 + k + 1 from rfl, hv']

/-! ### Claims on the linking loop -/

/-- Mirroring over all ids is mirroring between keys together with referential
integrity. -/
theorem Dag.mirroredAll_iff (g : Dag) : g.MirroredAll ↔ g.Mirrored ∧ g.Integrity := by
  constructor
  · intro h
    refine ⟨fun a _ b _ => h a b, fun a _ => ⟨fun b hb => ?_, fun b hb => ?_⟩⟩
    · exact Dag.mem_keys_of_prev ((h b a).1 hb)
    · exact Dag.mem_keys_of_next ((h a b).2 hb)
  · rintro ⟨hM, hI⟩ a b
    exact (Dag.dependsOn_iff_next hM hI a b).symm

/-- A successful linking loop had a closed input and built `linked`. -/
theorem read_dag_inv {d : Decls} (hWF : d.WF) {g : Dag} (h : read_dag d = .ok g) :
    d.Closed ∧ g = linked d := by
  by_cases hC : d.Closed
  · rw [read_dag_ok hWF hC] at h
    simp only [Except.ok.injEq] at h
    exact ⟨hC, h.symm⟩
  · obtain ⟨_, k, _, _, x, _, _, _, _, _, _, he⟩ := read_dag_error hWF hC
    rw [he] at h
    cases h

theorem find_linked (d : Decls) (k : String) :
    ((linked d).find k).map Job.declared = ((parse d).find k).map Job.declared := by
  unfold linked
  rw [Dag.find_addNext]
  cases (parse d).find k <;> rfl

/-- C13: for parsed jobs (ids ascending, every `ids_next` empty) on which the
linking loop succeeds, the graph it returns is mirrored for all ids `a` and `b`
(`b.ids_next` contains `a` iff `a.ids_prev` contains `b`), has the same keys,
and every job has kept its `id`, `command` and `ids_prev`. -/
theorem C13_linking_mirrors_edges (d : Decls) (hWF : d.WF) (g : Dag)
    (h : read_dag d = .ok g) :
    (∀ a b, a ∈ g.next b ↔ b ∈ g.prev a) ∧ g.keys = (parse d).keys ∧
      ∀ k, (g.find k).map Job.declared = ((parse d).find k).map Job.declared := by
  obtain ⟨hC, rfl⟩ := read_dag_inv hWF h
  refine ⟨?_, by rw [keys_linked, keys_parse], find_linked d⟩
  exact (Dag.mirroredAll_iff _).2 ⟨linked_mirrored d, linked_integrity hC⟩

/-- C13 at scenario 1: the loader turns `{A: [], B: [A], C: [A]}` into the graph
with `A.ids_next = [B, C]`. -/
theorem C13_linking_mirrors_edges_witness :
    declsScenario1.WF ∧ read_dag declsScenario1 = .ok scenario1 ∧
      (∀ a b, a ∈ scenario1.next b ↔ b ∈ scenario1.prev a) ∧
      scenario1.keys = (parse declsScenario1).keys ∧
      ∀ k, (scenario1.find k).map Job.declared =
        ((parse declsScenario1).find k).map Job.declared :=
  ⟨by decide, by decide,
    C13_linking_mirrors_edges declsScenario1 (by decide) scenario1 (by decide)⟩

/-- C14: the linking loop raises exactly when some job lists a dependency that
is not a top-level id; the error is then `Job <k>: dependency not found: <x>`
where `k` is the first job, in ascending id order, that lists such a
dependency and `x` is the first such id in the `deps` list of `k`. -/
theorem C14_linking_reports_first_missing_dependency (d : Decls) (hWF : d.WF) :
    ((∃ e, read_dag d = .error e) ↔ ∃ k ∈ d.ids, ∃ x ∈ d.deps k, x ∉ d.ids) ∧
      ∀ e, read_dag d = .error e →
        ∃ pre k post dpre x dpost, d.ids = pre ++ k :: post ∧
          (∀ j ∈ pre, ∀ y ∈ d.deps j, y ∈ d.ids) ∧
          d.deps k = dpre ++ x :: dpost ∧ (∀ y ∈ dpre, y ∈ d.ids) ∧ x ∉ d.ids ∧
          e = .ordinal ("Job " ++ k ++ ": dependency not found: " ++ x) := by
  by_cases hC : d.Closed
  · have hok := read_dag_ok hWF hC
    refine ⟨Iff.intro ?_ ?_, ?_⟩
    · rintro ⟨e, he⟩
      rw [hok] at he
      cases he
    · rintro ⟨k, hk, x, hx, hxn⟩
      exact absurd (hC k hk x hx) hxn
    · intro e he
      rw [hok] at he
      cases he
  · obtain ⟨pre, k, post, dpre, x, dpost, h1, h2, h3, h4, h5, he⟩ := read_dag_error hWF hC
    refine ⟨Iff.intro (fun _ => ?_) (fun _ => ⟨_, he⟩), ?_⟩
    · by_contra hcon
      push_neg at hcon
      exact hC hcon
    · intro e he'
      rw [he] at he'
      simp only [Except.error.injEq] at he'
      exact ⟨pre, k, post, dpre, x, dpost, h1, h2, h3, h4, h5, he'.symm⟩

/-- C14 at `{A: deps=[X, Y]}`: the error names job `A` and dependency `X`. -/
theorem C14_linking_reports_first_missing_dependency_witness :
    missingXY.WF ∧ read_dag missingXY = .error (.ordinal "Job A: dependency not found: X") ∧
      ∃ k ∈ missingXY.ids, ∃ x ∈ missingXY.deps k, x ∉ missingXY.ids :=
  ⟨by decide, by decide,
    (C14_linking_reports_first_missing_dependency missingXY (by decide)).1.1
      ⟨_, (by decide : read_dag missingXY =
        .error (.ordinal "Job A: dependency not found: X"))⟩⟩

/-! ### Referential integrity of the loaded graph -/

theorem Dag.find_of_mem {g : Dag} (hnd : g.keys.Nodup) {k : String} {job : Job}
    (h : (k, job) ∈ g) : g.find k = some job := by
  induction g with
  | nil => cases h
  | cons p g ih =>
    obtain ⟨k', j'⟩ := p
    rw [Dag.keys_cons, List.nodup_cons] at hnd
    rw [Dag.find_cons]
    rcases List.mem_cons.1 h with h | h
    · simp only [Prod.mk.injEq] at h
      rw [if_pos h.1, h.2]
    · have hk : k ∈ Dag.keys g := List.mem_map_of_mem Prod.fst h
      have hne : ¬ k = k' := fun hkk => hnd.1 (by rw [← hkk]; exact hk)
      rw [if_neg hne]
      exact ih hnd.2 h

/-- An order returned by `preprocess_dag` is the one the sorter returned. -/
theorem preprocess_dag_ok_run {g : Dag} {order : List String}
    (h : preprocess_dag g = .ok order) : g ≠ [] ∧ Toposorter.run g = .ok order := by
  by_cases hne : g = []
  · rw [hne, preprocess_dag_nil] at h
    cases h
  · refine ⟨hne, ?_⟩
    rw [preprocess_dag_of_ne_nil hne] at h
    cases hrun : Toposorter.run g with
    | error e => rw [hrun] at h; cases h
    | ok ids =>
      rw [hrun] at h
      cases hc : Componenter.run g with
      | error e => rw [hc] at h; cases h
      | ok u =>
        rw [hc] at h
        simp only [Except.ok.injEq] at h
        rw [h]

theorem preprocess_dag_ok_keys {g : Dag} {order : List String}
    (h : preprocess_dag g = .ok order) : ∀ id, id ∈ order ↔ id ∈ g.keys :=
  (Toposorter.runFuel_ok (preprocess_dag_ok_run h).2).2

/-- On an order made of keys `execute_dag` either returns or raises
`A job failed.`: its lookup assertion holds throughout. -/
theorem execute_dag_outcome {g : Dag} (sys : String → Int) {order : List String}
    (hk : ∀ id ∈ order, id ∈ g.keys) :
    (execute_dag g sys order ⟨[], []⟩).2 = .ok () ∨
      (execute_dag g sys order ⟨[], []⟩).2 = .error aJobFailed := by
  by_cases hex : ∃ id ∈ order, g.Fails sys id
  · obtain ⟨pre, f, post, hsplit, hpre, hf⟩ := exists_first order hex
    exact Or.inr (execute_dag_fail hk hsplit hpre hf).2
  · push_neg at hex
    exact Or.inl (execute_dag_all_ok hk hex).2

theorem Componenter.crun_ne_missing {g : Dag} (hI : g.Integrity) (id : String) :
    Componenter.run g ≠ .error (.missing id) := by
  cases g with
  | nil => intro h; cases h
  | cons p rest =>
    obtain ⟨first, job⟩ := p
    obtain ⟨V, _, _, _, _, _, hrun⟩ := Componenter.run_spec _ hI first job rest rfl
    rw [hrun]
    split <;> intro h <;> cases h

theorem Toposorter.run_ne_missing {g : Dag} (hN : g.NextClosed) (id : String) :
    Toposorter.run g ≠ .error (.missing id) := by
  intro h
  obtain ⟨he, _⟩ := Toposorter.runFuel_error hN (Nat.lt_succ_self _) h
  cases he

/-- C16: in a graph returned by a successful linking loop every id listed in an
`ids_prev` or `ids_next` is a key; hence no lookup of `Toposorter.visit` or
`Componenter.visit` misses during a run, every id of an order returned by
`preprocess_dag` is a key, and the lookup assertion of `execute_dag` holds on
such an order whatever the commands do. -/
theorem C16_loaded_graph_has_referential_integrity (d : Decls) (hWF : d.WF) (g : Dag)
    (h : read_dag d = .ok g) :
    (∀ k job, (k, job) ∈ g → ∀ x, x ∈ job.ids_prev ∨ x ∈ job.ids_next → x ∈ g.keys) ∧
      (∀ id, Toposorter.run g ≠ .error (.missing id)) ∧
      (∀ id, Componenter.run g ≠ .error (.missing id)) ∧
      ∀ order, preprocess_dag g = .ok order →
        (∀ id ∈ order, id ∈ g.keys) ∧
          ∀ sys, (execute_dag g sys order ⟨[], []⟩).2 ≠ .error .assertion := by
  obtain ⟨hC, rfl⟩ := read_dag_inv hWF h
  have hI := linked_integrity hC
  refine ⟨?_, Toposorter.run_ne_missing hI.nextClosed, Componenter.crun_ne_missing hI, ?_⟩
  · intro k job hmem x hx
    have hf := Dag.find_of_mem (linked_wf hWF).nodup_keys hmem
    have hk := Dag.mem_keys_of_find hf
    rcases hx with hx | hx
    · exact (hI k hk).2 x (by rw [Dag.prev_of_find hf]; exact hx)
    · exact (hI k hk).1 x (by rw [Dag.next_of_find hf]; exact hx)
  · intro order hp
    have hk : ∀ id ∈ order, id ∈ (linked d).keys := fun id hid =>
      (preprocess_dag_ok_keys hp id).1 hid
    refine ⟨hk, fun sys => ?_⟩
    rcases execute_dag_outcome sys hk with h | h <;> rw [h] <;> intro hc <;> cases hc

/-- C16 at scenario 1. -/
theorem C16_loaded_graph_has_referential_integrity_witness :
    declsScenario1.WF ∧ read_dag declsScenario1 = .ok scenario1 ∧
      preprocess_dag scenario1 = .ok ["A", "B", "C"] ∧
      (∀ id ∈ ["A", "B", "C"], id ∈ scenario1.keys) ∧
      ∀ sys, (execute_dag scenario1 sys ["A", "B", "C"] ⟨[], []⟩).2 ≠ .error .assertion :=
  ⟨by decide, by decide, by decide,
    (C16_loaded_graph_has_referential_integrity declsScenario1 (by decide) scenario1
      (by decide)).2.2.2 ["A", "B", "C"] (by decide)⟩

/-! ### Graphs whose id order is already topological -/

theorem Dag.DepsSmaller.transGen {g : Dag} (h : g.DepsSmaller) {a b : String}
    (hab : Relation.TransGen g.DependsOn a b) : b < a := by
  induction hab with
  | single hab => exact h a (Dag.mem_keys_of_prev hab) _ hab
  | tail _ hbc ih => exact lt_trans (h _ (Dag.mem_keys_of_prev hbc) _ hbc) ih

theorem Dag.DepsSmaller.acyclic {g : Dag} (h : g.DepsSmaller) : g.Acyclic := by
  rintro ⟨a, ha⟩
  exact lt_irrefl _ (h.transGen ha)

/-- A duplicate-free list in which smaller elements have smaller positions is
ascending. -/
theorem pairwise_lt_of_indexOf_mono :
    ∀ (l : List String), l.Nodup →
      (∀ x ∈ l, ∀ y ∈ l, x < y → l.indexOf x < l.indexOf y) → l.Pairwise (· < ·)
  | [], _, _ => List.Pairwise.nil
  | a :: t, hnd, hmono => by
    rw [List.nodup_cons] at hnd
    rw [List.pairwise_cons]
    constructor
    · intro y hy
      have hya : y ≠ a := fun h => hnd.1 (h ▸ hy)
      rcases lt_trichotomy a y with h | h | h
      · exact h
      · exact absurd h.symm hya
      · have := hmono y (List.mem_cons_of_mem _ hy) a (List.mem_cons_self _ _) h
        rw [List.indexOf_cons_self] at this
        omega
    · apply pairwise_lt_of_indexOf_mono t hnd.2
      intro x hx y hy hxy
      have hxa : x ≠ a := fun h => hnd.1 (h ▸ hx)
      have hya : y ≠ a := fun h => hnd.1 (h ▸ hy)
      have := hmono x (List.mem_cons_of_mem _ hx) y (List.mem_cons_of_mem _ hy) hxy
      rw [List.indexOf_cons_ne _ (Ne.symm hxa), List.indexOf_cons_ne _ (Ne.symm hya)] at this
      omega

/-- C15: on a graph (a `std::map`) with mirrored edges (`b.ids_next` contains
`a` exactly when `a.ids_prev` contains `b`, for all ids, so that every listed
id is a key) in which every dependency has a smaller id than its dependent,
`Toposorter.run` returns exactly the keys in ascending order. -/
theorem C15_run_returns_canonical_order (g : Dag) (hWF : g.WF) (hM : g.MirroredAll)
    (hS : g.DepsSmaller) : Toposorter.run g = .ok g.keys := by
  obtain ⟨hMir, hI⟩ := (Dag.mirroredAll_iff g).1 hM
  obtain ⟨order, hrun⟩ := Toposorter.run_ok_of_acyclic g hI hMir hS.acyclic
  obtain ⟨hT, hmem⟩ := Toposorter.runFuel_ok hrun
  have hnd := TopoRev.nodup order hT
  have hsorted : order.Pairwise (· < ·) := by
    apply pairwise_lt_of_indexOf_mono order hnd
    intro x hx y hy hxy
    exact Toposorter.index_lt_of_lt hWF ((hmem x).1 hx) ((hmem y).1 hy) hxy
      (fun z hz => hS.transGen (Dag.transGen_dependsOn_of_next hMir hI hz)) hrun
  have hperm : order.Perm g.keys := (List.perm_ext_iff_of_nodup hnd hWF.nodup_keys).2 hmem
  rw [hrun, List.eq_of_perm_of_sorted hperm hsorted hWF]

theorem scenario1_mirroredAll : scenario1.MirroredAll :=
  (Dag.mirroredAll_iff scenario1).2 ⟨by decide, by decide⟩

/-- C15 at scenario 1: `{A: deps=[], B: deps=[A], C: deps=[A]}` gives `[A, B, C]`. -/
theorem C15_run_returns_canonical_order_witness :
    scenario1.WF ∧ scenario1.MirroredAll ∧ scenario1.DepsSmaller ∧
      Toposorter.run scenario1 = .ok ["A", "B", "C"] :=
  ⟨by decide, scenario1_mirroredAll, by decide,
    C15_run_returns_canonical_order scenario1 (by decide) scenario1_mirroredAll (by decide)⟩

/-! ### Termination of the traversals -/

/-- Whatever the state, a visit that returns has restored the temporary marks
and kept every permanent mark. -/
theorem Toposorter.visit_marks (g : Dag) :
    ∀ (fuel : Nat) (t : Toposorter) (id : String) (t' : Toposorter),
      Toposorter.visit g fuel t id = .ok t' →
      t'.marks_temporary = t.marks_temporary ∧
        ∀ x ∈ t.marks_permanent, x ∈ t'.marks_permanent
  | 0, t, id, t', h => by rw [Toposorter.visit_zero] at h; cases h
  | fuel + 1, t, id, t', h => by
    rw [Toposorter.visit_succ] at h
    by_cases hp : id ∈ t.marks_permanent
    · rw [if_pos hp] at h
      cases h
      exact ⟨rfl, fun _ hx => hx⟩
    rw [if_neg hp] at h
    by_cases ht : id ∈ t.marks_temporary
    · rw [if_pos ht] at h; cases h
    rw [if_neg ht] at h
    cases hf : g.find id with
    | none => rw [hf] at h; cases h
    | some job =>
      rw [hf] at h
      simp only at h
      cases hl : forEach (fun s id_next => Toposorter.visit g fuel s id_next)
          { t with marks_temporary := t.marks_temporary.insert id } job.ids_next with
      | error e => rw [hl] at h; cases h
      | ok t2 =>
        rw [hl] at h
        simp only [Except.ok.injEq] at h
        obtain ⟨⟨ht2, hp2⟩, _, _⟩ := forEach_ok
          (I := fun s => s.marks_temporary = t.marks_temporary.insert id ∧
            ∀ x ∈ t.marks_permanent, x ∈ s.marks_permanent)
          (Q := fun _ _ => True) job.ids_next _ t2 (by
            intro s x s' _ hI hb
            obtain ⟨h1, h2⟩ := Toposorter.visit_marks g fuel s x s' hb
            exact ⟨⟨by rw [h1, hI.1], fun y hy => h2 y (hI.2 y hy)⟩, trivial,
              fun _ _ => trivial⟩)
          ⟨rfl, fun _ hx => hx⟩ hl
        subst h
        refine ⟨?_, fun x hx => ?_⟩
        · simp only [ht2, List.insert_of_not_mem ht, List.erase_cons_head]
        · simp only [List.mem_insert_iff]
          exact Or.inr (hp2 x hx)

/-- The states in which `visit` calls itself: after marking `id` temporarily and
completing the visits of some of the successors, fewer jobs are unmarked than
when `visit(id)` was entered. -/
theorem Toposorter.descent (g : Dag) (fuel : Nat) (t : Toposorter) (id : String) (job : Job)
    (hp : id ∉ t.marks_permanent) (ht : id ∉ t.marks_temporary) (hf : g.find id = some job)
    (pre : List String) (s : Toposorter)
    (hl : forEach (fun s id_next => Toposorter.visit g fuel s id_next)
      { t with marks_temporary := t.marks_temporary.insert id } pre = .ok s) :
    Toposorter.unmarked g s < Toposorter.unmarked g t := by
  have hstart : Toposorter.unmarked g
      { t with marks_temporary := t.marks_temporary.insert id } <
      Toposorter.unmarked g t := by
    unfold Toposorter.unmarked
    apply countP_lt_of_imp g.keys id (Dag.mem_keys_of_find hf)
    · intro x hx
      simp only [decide_eq_true_eq, List.mem_insert_iff, not_or] at hx ⊢
      exact ⟨hx.1.2, hx.2⟩
    · simp only [decide_eq_true_eq]; exact ⟨ht, hp⟩
    · simp only [decide_eq_false_iff_not, List.mem_insert_iff, true_or, not_true_eq_false,
        false_and, not_false_eq_true]
  obtain ⟨hle, _, _⟩ := forEach_ok
    (I := fun a => Toposorter.unmarked g a ≤
      Toposorter.unmarked g { t with marks_temporary := t.marks_temporary.insert id })
    (Q := fun _ _ => True) pre _ s (by
      intro a x b _ hI hb
      obtain ⟨h1, h2⟩ := Toposorter.visit_marks g fuel a x b hb
      exact ⟨le_trans (Toposorter.unmarked_mono (fun y hy => by rw [h1]; exact hy) h2) hI,
        trivial, fun _ _ => trivial⟩)
    (le_refl _) hl
  exact lt_of_le_of_lt hle hstart

/-- A budget above the number of unmarked jobs is never used up, on any graph
and in any state. -/
theorem Toposorter.visit_ne_fuel (g : Dag) :
    ∀ (fuel : Nat) (t : Toposorter) (id : String),
      Toposorter.unmarked g t < fuel → Toposorter.visit g fuel t id ≠ .error .fuel
  | 0, t, id, hfuel => by omega
  | fuel + 1, t, id, hfuel => by
    intro h
    rw [Toposorter.visit_succ] at h
    by_cases hp : id ∈ t.marks_permanent
    · rw [if_pos hp] at h; cases h
    rw [if_neg hp] at h
    by_cases ht : id ∈ t.marks_temporary
    · rw [if_pos ht] at h; cases h
    rw [if_neg ht] at h
    cases hf : g.find id with
    | none => rw [hf] at h; cases h
    | some job =>
      rw [hf] at h
      simp only at h
      cases hl : forEach (fun s id_next => Toposorter.visit g fuel s id_next)
          { t with marks_temporary := t.marks_temporary.insert id } job.ids_next with
      | ok t2 => rw [hl] at h; cases h
      | error e =>
        rw [hl] at h
        cases h
        obtain ⟨pre, x, post, _, s, hs, hx⟩ :
            ∃ pre x post, job.ids_next = pre ++ x :: post ∧ ∃ s,
              forEach (fun s id_next => Toposorter.visit g fuel s id_next)
                { t with marks_temporary := t.marks_temporary.insert id } pre = .ok s ∧
              Toposorter.visit g fuel s x = .error .fuel := by
          clear hfuel
          generalize ({ t with marks_temporary := t.marks_temporary.insert id } : Toposorter)
            = t1 at hl
          generalize job.ids_next = xs at hl
          induction xs generalizing t1 with
          | nil => rw [forEach_nil] at hl; cases hl
          | cons y ys ih =>
            rw [forEach_cons] at hl
            cases hy : Toposorter.visit g fuel t1 y with
            | error e =>
              rw [hy] at hl
              cases hl
              exact ⟨[], y, ys, rfl, t1, rfl, hy⟩
            | ok t2 =>
              rw [hy] at hl
              obtain ⟨pre, x, post, hsplit, s, hs, hx⟩ := ih t2 hl
              refine ⟨y :: pre, x, post, by rw [hsplit, List.cons_append], s, ?_, hx⟩
              rw [forEach_cons, hy]
              exact hs
        have hdesc := Toposorter.descent g fuel t id job hp ht hf pre s hs
        exact Toposorter.visit_ne_fuel g fuel s x (by omega) hx

/-- With a budget above the number of unmarked jobs the result of a visit does
not depend on the budget. -/
theorem Toposorter.visit_budget (g : Dag) (fuel : Nat) (t : Toposorter) (id : String)
    (hfuel : Toposorter.unmarked g t < fuel) :
    ∀ (k : Nat), Toposorter.visit g (fuel + k) t id = Toposorter.visit g fuel t id
  | 0 => rfl
  | k + 1 => by
    have ih := Toposorter.visit_budget g fuel t id hfuel k
    refine Toposorter.visit_fuel_succ g (fuel + k) t id _ ih ?_
    exact Toposorter.visit_ne_fuel g fuel t id hfuel

/-- The two loops of `Componenter::visit` are one loop over `ids_next` followed
by `ids_prev`. -/
theorem Componenter.cvisit_succ_append (g : Dag) (fuel : Nat) (c : Componenter)
    (id : String) :
    Componenter.visit g (fuel + 1) c id =
      if id ∈ c.ids_visited then .ok c
      else
        match g.find id with
        | none => .error (.missing id)
        | some job =>
          forEach (fun s y => Componenter.visit g fuel s y)
            { c with ids_visited := c.ids_visited.insert id } (job.ids_next ++ job.ids_prev) := by
  rw [Componenter.cvisit_succ]
  by_cases hv : id ∈ c.ids_visited
  · rw [if_pos hv, if_pos hv]
  · rw [if_neg hv, if_neg hv]
    cases g.find id with
    | none => rfl
    | some job =>
      simp only
      rw [forEach_append_eq]
      cases forEach (fun s id_next => Componenter.visit g fuel s id_next)
          { c with ids_visited := c.ids_visited.insert id } job.ids_next with
      | error e => rfl
      | ok c2 => rfl

/-- The states in which `Componenter::visit` calls itself: after marking `id`
and completing some of the visits of its neighbours, fewer jobs are unvisited
than when `visit(id)` was entered. -/
theorem Componenter.cdescent (g : Dag) (fuel : Nat) (c : Componenter) (id : String)
    (job : Job) (hv : id ∉ c.ids_visited) (hf : g.find id = some job) (pre : List String)
    (s : Componenter)
    (hl : forEach (fun s y => Componenter.visit g fuel s y)
      { c with ids_visited := c.ids_visited.insert id } pre = .ok s) :
    Componenter.unvisited g s < Componenter.unvisited g c := by
  have hstart : Componenter.unvisited g
      { c with ids_visited := c.ids_visited.insert id } < Componenter.unvisited g c := by
    unfold Componenter.unvisited
    apply countP_lt_of_imp g.keys id (Dag.mem_keys_of_find hf)
    · intro x hx
      simp only [decide_eq_true_eq, List.mem_insert_iff, not_or] at hx ⊢
      exact hx.2
    · simp only [decide_eq_true_eq]; exact hv
    · simp only [decide_eq_false_iff_not, List.mem_insert_iff, true_or, not_true_eq_false,
        not_false_eq_true]
  obtain ⟨hle, _, _⟩ := forEach_ok
    (I := fun a => Componenter.unvisited g a ≤
      Componenter.unvisited g { c with ids_visited := c.ids_visited.insert id })
    (Q := fun _ _ => True) pre _ s (by
      intro a x b _ hI hb
      obtain ⟨hE, _⟩ := Componenter.cvisit_ok g fuel a x b hb
      exact ⟨le_trans (Componenter.unvisited_mono hE.mono) hI, trivial, fun _ _ => trivial⟩)
    (le_refl _) hl
  exact lt_of_le_of_lt hle hstart

/-- With referential integrity and a budget above the number of unvisited jobs,
`Componenter::visit` of a key returns, and its result does not depend on the
budget. -/
theorem Componenter.cvisit_budget (g : Dag) (hI : g.Integrity) (fuel : Nat) (c : Componenter)
    (id : String) (hk : id ∈ g.keys) (hfuel : Componenter.unvisited g c < fuel) :
    (∃ c', Componenter.visit g fuel c id = .ok c') ∧
      ∀ (k : Nat), Componenter.visit g (fuel + k) c id = Componenter.visit g fuel c id := by
  have hok : ∃ c', Componenter.visit g fuel c id = .ok c' := by
    cases hv : Componenter.visit g fuel c id with
    | error e => exact absurd hv (Componenter.visit_no_error g hI fuel c id e hk hfuel)
    | ok c' => exact ⟨c', rfl⟩
  refine ⟨hok, fun k => ?_⟩
  induction k with
  | zero => rfl
  | succ k ih =>
    obtain ⟨c', hc'⟩ := hok
    refine Componenter.cvisit_fuel_succ g (fuel + k) c id _ ih ?_
    rw [hc']
    intro h
    cases h

/-- C17, as stated, fails at the empty graph: it has referential integrity, but
`Componenter.run` neither returns nor raises there; it stops at its assertion
`assert(! id2job.empty())`. -/
theorem C17_termination_counterexample :
    Dag.Integrity [] ∧ Componenter.run [] = .error .assertion ∧
      ¬ (Componenter.run [] = .ok () ∨ ∃ what, Componenter.run [] = .error (.ordinal what)) := by
  refine ⟨by decide, rfl, ?_⟩
  rintro (h | ⟨what, h⟩) <;> cases h

/-- C17, amended: on every graph with referential integrity, cycles and
self-loops included, the traversals terminate.  `Toposorter.visit` never uses
up a recursion budget above the number of jobs that carry no mark, its result
does not depend on such a budget, and each recursive call is made in a state
with fewer unmarked jobs; the same holds for `Componenter.visit` on a key and
the number of unvisited jobs, and that visit returns.  So `Toposorter.run`
either returns or raises `Not a DAG.`, and on a non-empty graph
`Componenter.run` either returns or raises `More than one component.`; for
both the budget supplied by `run` can be replaced by any larger one. -/
theorem C17_traversals_terminate (g : Dag) (hI : g.Integrity) :
    (∀ fuel t id, Toposorter.unmarked g t < fuel →
        Toposorter.visit g fuel t id ≠ .error .fuel ∧
          ∀ k, Toposorter.visit g (fuel + k) t id = Toposorter.visit g fuel t id) ∧
      (∀ fuel t id job pre s, id ∉ t.marks_permanent → id ∉ t.marks_temporary →
        g.find id = some job →
        forEach (fun s id_next => Toposorter.visit g fuel s id_next)
          { t with marks_temporary := t.marks_temporary.insert id } pre = .ok s →
        Toposorter.unmarked g s < Toposorter.unmarked g t) ∧
      (∀ fuel c id, id ∈ g.keys → Componenter.unvisited g c < fuel →
        (∃ c', Componenter.visit g fuel c id = .ok c') ∧
          ∀ k, Componenter.visit g (fuel + k) c id = Componenter.visit g fuel c id) ∧
      (∀ fuel c id job pre s, id ∉ c.ids_visited → g.find id = some job →
        forEach (fun s y => Componenter.visit g fuel s y)
          { c with ids_visited := c.ids_visited.insert id } pre = .ok s →
        Componenter.unvisited g s < Componenter.unvisited g c) ∧
      ((∃ order, Toposorter.run g = .ok order) ∨
        Toposorter.run g = .error (.ordinal "Not a DAG.")) ∧
      (∀ k, Toposorter.runFuel g (g.length + 1 + k) Toposorter.new = Toposorter.run g) ∧
      (g ≠ [] →
        (Componenter.run g = .ok () ∨
          Componenter.run g = .error (.ordinal "More than one component.")) ∧
        ∀ k, Componenter.runFuel g (g.length + 1 + k) Componenter.new = Componenter.run g) := by
  refine ⟨fun fuel t id hfuel => ⟨Toposorter.visit_ne_fuel g fuel t id hfuel,
      Toposorter.visit_budget g fuel t id hfuel⟩,
    fun fuel t id job pre s hp ht hf hl => Toposorter.descent g fuel t id job hp ht hf pre s hl,
    fun fuel c id hk hfuel => Componenter.cvisit_budget g hI fuel c id hk hfuel,
    fun fuel c id job pre s hv hf hl => Componenter.cdescent g fuel c id job hv hf pre s hl,
    ?_, Toposorter.runFuel_eq_run g hI.nextClosed, ?_⟩
  · cases hrun : Toposorter.run g with
    | ok order => exact Or.inl ⟨order, rfl⟩
    | error e =>
      obtain ⟨he, _⟩ := Toposorter.runFuel_error hI.nextClosed (Nat.lt_succ_self _) hrun
      rw [he]
      exact Or.inr rfl
  · intro hne
    refine ⟨?_, Componenter.crunFuel_eq_run g hI⟩
    obtain ⟨⟨first, job⟩, rest, hg⟩ := List.exists_cons_of_ne_nil hne
    obtain ⟨V, _, _, _, _, _, hrun⟩ := Componenter.run_spec g hI first job rest hg
    rw [hrun]
    by_cases hlt : V.length < g.length
    · rw [if_pos hlt]; exact Or.inr rfl
    · rw [if_neg hlt]; exact Or.inl rfl

/-- C17 (amended) at `{A: deps=[A]}`: the sorter raises, the checker returns. -/
theorem C17_traversals_terminate_witness :
    selfLoop.Integrity ∧ selfLoop ≠ [] ∧
      Toposorter.run selfLoop = .error (.ordinal "Not a DAG.") ∧
      Componenter.run selfLoop = .ok () ∧
      ∀ k, Componenter.runFuel selfLoop (selfLoop.length + 1 + k) Componenter.new =
        Componenter.run selfLoop :=
  ⟨by decide, by decide, by decide, by decide,
    ((C17_traversals_terminate selfLoop (by decide)).2.2.2.2.2.2 (by decide)).2⟩

/-! ### main -/

theorem read_dag_input_cases {input : Input} (hWF : input.WF) :
    (∃ what, read_dag_input input = .error (.ordinal what)) ∨
      ∃ d, d.WF ∧ d.Closed ∧ read_dag_input input = .ok (linked d) := by
  cases input with
  | malformed what => exact Or.inl ⟨what, rfl⟩
  | jobs d =>
    have hd : d.WF := hWF
    by_cases hC : d.Closed
    · exact Or.inr ⟨d, hd, hC, read_dag_ok hd hC⟩
    · obtain ⟨_, k, _, _, x, _, _, _, _, _, _, he⟩ := read_dag_error hd hC
      exact Or.inl ⟨_, he⟩

theorem preprocess_linked_cases {d : Decls} (hWF : d.WF) (hC : d.Closed) :
    (∃ what, preprocess_dag (linked d) = .error (.ordinal what)) ∨
      ∃ order, preprocess_dag (linked d) = .ok order ∧ ∀ id ∈ order, id ∈ (linked d).keys := by
  by_cases hne : linked d = []
  · rw [hne]
    exact Or.inl ⟨_, preprocess_dag_nil⟩
  · rcases preprocess_dag_cases (linked d) hne (linked_wf hWF) (linked_integrity hC)
      (linked_mirrored d) with ⟨_, hp⟩ | ⟨_, _, hp⟩ | ⟨_, _, order, _, hp⟩
    · exact Or.inl ⟨_, hp⟩
    · exact Or.inl ⟨_, hp⟩
    · exact Or.inr ⟨order, hp, fun id hid => (preprocess_dag_ok_keys hp id).1 hid⟩

theorem main_of_read_error {input : Input} (sys : String → Int) {what : String}
    (h : read_dag_input input = .error (.ordinal what)) :
    main input sys = { status := .ok 1, ran := [], cerr := [what ++ "\n"] } := by
  unfold main
  rw [h]
  rfl

theorem main_of_preprocess_error {input : Input} (sys : String → Int) {g : Dag}
    {what : String} (h1 : read_dag_input input = .ok g)
    (h2 : preprocess_dag g = .error (.ordinal what)) :
    main input sys = { status := .ok 2, ran := [], cerr := [what ++ "\n"] } := by
  unfold main
  rw [h1]
  simp only
  rw [h2]
  rfl

theorem main_of_execute {input : Input} (sys : String → Int) {g : Dag}
    {order : List String} (h1 : read_dag_input input = .ok g)
    (h2 : preprocess_dag g = .ok order) :
    main input sys =
      match execute_dag g sys order ⟨[], []⟩ with
      | (ex, .error e) => main_catch 3 e ex
      | (ex, .ok ()) => { status := .ok 0, ran := ex.ran, cerr := ex.cerr } := by
  unfold main
  rw [h1]
  simp only
  rw [h2]

/-- The four ways a run of `main` can go on an input whose items are in key
order: it fails in stage 1, 2 or 3 with an `OrdinalError`, or completes. -/
theorem main_cases {input : Input} (hWF : input.WF) (sys : String → Int) :
    ((∃ e, read_dag_input input = .error e) ∧ (main input sys).status = .ok 1 ∧
        (main input sys).ran = []) ∨
      (∃ g, read_dag_input input = .ok g ∧ (∃ e, preprocess_dag g = .error e) ∧
        (main input sys).status = .ok 2 ∧ (main input sys).ran = []) ∨
      (∃ g order, read_dag_input input = .ok g ∧ preprocess_dag g = .ok order ∧
        (∃ e, (execute_dag g sys order ⟨[], []⟩).2 = .error e) ∧
        (main input sys).status = .ok 3) ∨
      (∃ g order, read_dag_input input = .ok g ∧ preprocess_dag g = .ok order ∧
        (execute_dag g sys order ⟨[], []⟩).2 = .ok () ∧ (main input sys).status = .ok 0) := by
  rcases read_dag_input_cases hWF with ⟨what, hr⟩ | ⟨d, hd, hC, hr⟩
  · left
    rw [main_of_read_error sys hr]
    exact ⟨⟨_, hr⟩, rfl, rfl⟩
  right
  rcases preprocess_linked_cases hd hC with ⟨what, hp⟩ | ⟨order, hp, hk⟩
  · left
    rw [main_of_preprocess_error sys hr hp]
    exact ⟨linked d, hr, ⟨_, hp⟩, rfl, rfl⟩
  right
  rw [main_of_execute sys hr hp]
  rcases execute_dag_outcome sys hk with hx | hx
  · right
    refine ⟨linked d, order, hr, hp, hx, ?_⟩
    cases hex : execute_dag (linked d) sys order ⟨[], []⟩ with
    | mk ex r =>
      rw [hex] at hx
      simp only at hx
      subst hx
      rfl
  · left
    refine ⟨linked d, order, hr, hp, ⟨_, hx⟩, ?_⟩
    cases hex : execute_dag (linked d) sys order ⟨[], []⟩ with
    | mk ex r =>
      rw [hex] at hx
      simp only at hx
      subst hx
      rfl

theorem Except.ok_ne_error_run {α : Type} {a : α} {e : Error} {r : Except Error α}
    (h1 : r = .ok a) (h2 : r = .error e) : False := by
  rw [h1] at h2
  cases h2

theorem Except.ok_inj_run {α : Type} {a b : α} {r : Except Error α}
    (h1 : r = .ok a) (h2 : r = .ok b) : a = b := by
  rw [h1] at h2
  simp only [Except.ok.injEq] at h2
  exact h2

/-- C11: on an input whose items are in key order, the exit status of `main` is
1 exactly when `read_dag` raises, 2 exactly when `read_dag` returns and
`preprocess_dag` raises, 3 exactly when both return and `execute_dag` raises,
and 0 exactly when all three stages complete.  The four statuses are distinct
and one of the four cases always holds, so the status is decided by the first
stage that fails alone. -/
theorem C11_exit_status_is_first_failed_stage (input : Input) (hWF : input.WF)
    (sys : String → Int) :
    ((main input sys).status = .ok 1 ↔ ∃ e, read_dag_input input = .error e) ∧
      ((main input sys).status = .ok 2 ↔
        ∃ g, read_dag_input input = .ok g ∧ ∃ e, preprocess_dag g = .error e) ∧
      ((main input sys).status = .ok 3 ↔
        ∃ g order, read_dag_input input = .ok g ∧ preprocess_dag g = .ok order ∧
          ∃ e, (execute_dag g sys order ⟨[], []⟩).2 = .error e) ∧
      ((main input sys).status = .ok 0 ↔
        ∃ g order, read_dag_input input = .ok g ∧ preprocess_dag g = .ok order ∧
          (execute_dag g sys order ⟨[], []⟩).2 = .ok ()) ∧
      ((main input sys).status = .ok 0 ∨ (main input sys).status = .ok 1 ∨
        (main input sys).status = .ok 2 ∨ (main input sys).status = .ok 3) := by
  rcases main_cases hWF sys with ⟨⟨e, hr⟩, hs, _⟩ | ⟨g, hr, ⟨e, hp⟩, hs, _⟩ |
    ⟨g, order, hr, hp, ⟨e, hx⟩, hs⟩ | ⟨g, order, hr, hp, hx, hs⟩
  · refine ⟨Iff.intro (fun _ => ⟨e, hr⟩) (fun _ => hs), Iff.intro ?_ ?_, Iff.intro ?_ ?_,
      Iff.intro ?_ ?_, Or.inr (Or.inl hs)⟩
    · intro h; rw [hs] at h; exact absurd h (by decide)
    · rintro ⟨g', hr', _⟩; exact (Except.ok_ne_error_run hr' hr).elim
    · intro h; rw [hs] at h; exact absurd h (by decide)
    · rintro ⟨g', _, hr', _⟩; exact (Except.ok_ne_error_run hr' hr).elim
    · intro h; rw [hs] at h; exact absurd h (by decide)
    · rintro ⟨g', _, hr', _⟩; exact (Except.ok_ne_error_run hr' hr).elim
  · refine ⟨Iff.intro ?_ ?_, Iff.intro (fun _ => ⟨g, hr, e, hp⟩) (fun _ => hs),
      Iff.intro ?_ ?_, Iff.intro ?_ ?_, Or.inr (Or.inr (Or.inl hs))⟩
    · intro h; rw [hs] at h; exact absurd h (by decide)
    · rintro ⟨e', hr'⟩; exact (Except.ok_ne_error_run hr hr').elim
    · intro h; rw [hs] at h; exact absurd h (by decide)
    · rintro ⟨g', order', hr', hp', _⟩
      rw [Except.ok_inj_run hr' hr] at hp'
      exact (Except.ok_ne_error_run hp' hp).elim
    · intro h; rw [hs] at h; exact absurd h (by decide)
    · rintro ⟨g', order', hr', hp', _⟩
      rw [Except.ok_inj_run hr' hr] at hp'
      exact (Except.ok_ne_error_run hp' hp).elim
  · refine ⟨Iff.intro ?_ ?_, Iff.intro ?_ ?_,
      Iff.intro (fun _ => ⟨g, order, hr, hp, e, hx⟩) (fun _ => hs), Iff.intro ?_ ?_,
      Or.inr (Or.inr (Or.inr hs))⟩
    · intro h; rw [hs] at h; exact absurd h (by decide)
    · rintro ⟨e', hr'⟩; exact (Except.ok_ne_error_run hr hr').elim
    · intro h; rw [hs] at h; exact absurd h (by decide)
    · rintro ⟨g', hr', e', hp'⟩
      rw [Except.ok_inj_run hr' hr] at hp'
      exact (Except.ok_ne_error_run hp hp').elim
    · intro h; rw [hs] at h; exact absurd h (by decide)
    · rintro ⟨g', order', hr', hp', hx'⟩
      rw [Except.ok_inj_run hr' hr] at hp' hx'
      rw [Except.ok_inj_run hp' hp] at hx'
      exact (Except.ok_ne_error_run hx' hx).elim
  · refine ⟨Iff.intro ?_ ?_, Iff.intro ?_ ?_, Iff.intro ?_ ?_,
      Iff.intro (fun _ => ⟨g, order, hr, hp, hx⟩) (fun _ => hs), Or.inl hs⟩
    · intro h; rw [hs] at h; exact absurd h (by decide)
    · rintro ⟨e', hr'⟩; exact (Except.ok_ne_error_run hr hr').elim
    · intro h; rw [hs] at h; exact absurd h (by decide)
    · rintro ⟨g', hr', e', hp'⟩
      rw [Except.ok_inj_run hr' hr] at hp'
      exact (Except.ok_ne_error_run hp hp').elim
    · intro h; rw [hs] at h; exact absurd h (by decide)
    · rintro ⟨g', order', hr', hp', e', hx'⟩
      rw [Except.ok_inj_run hr' hr] at hp' hx'
      rw [Except.ok_inj_run hp' hp] at hx'
      exact (Except.ok_ne_error_run hx hx').elim

/-- C11 at scenario 5: `A` exits 0 and `B` exits 1, so `main` returns 3. -/
theorem C11_exit_status_is_first_failed_stage_witness :
    (Input.jobs declsScenario5).WF ∧
      (main (.jobs declsScenario5) scenario5System).status = .ok 3 ∧
      ∃ g order, read_dag_input (.jobs declsScenario5) = .ok g ∧
        preprocess_dag g = .ok order ∧
        ∃ e, (execute_dag g scenario5System order ⟨[], []⟩).2 = .error e :=
  ⟨by decide, by decide,
    (C11_exit_status_is_first_failed_stage (.jobs declsScenario5) (by decide)
      scenario5System).2.2.1.1 (by decide)⟩

theorem main_catch_ran (stage : Int) (e : Error) (ex : Exec) :
    (main_catch stage e ex).ran = ex.ran := by
  cases e <;> rfl

/-- C12: whenever `preprocess_dag` raises for the loaded graph, `main` hands no
command to `system`; and whenever `main` has run a command, `read_dag` and
`preprocess_dag` had both returned, and the commands run are those that
`execute_dag` runs on the order `preprocess_dag` returned. -/
theorem C12_no_job_runs_after_failed_validation (input : Input) (sys : String → Int) :
    (∀ g e, read_dag_input input = .ok g → preprocess_dag g = .error e →
        (main input sys).ran = []) ∧
      ((main input sys).ran ≠ [] →
        ∃ g order, read_dag_input input = .ok g ∧ preprocess_dag g = .ok order ∧
          (main input sys).ran = (execute_dag g sys order ⟨[], []⟩).1.ran) := by
  constructor
  · intro g e hr hp
    unfold main
    rw [hr]
    simp only
    rw [hp]
    exact main_catch_ran 2 e ⟨[], []⟩
  · intro hran
    cases hr : read_dag_input input with
    | error e =>
      have : (main input sys).ran = [] := by
        unfold main
        rw [hr]
        exact main_catch_ran 1 e ⟨[], []⟩
      exact absurd this hran
    | ok g =>
      cases hp : preprocess_dag g with
      | error e =>
        have : (main input sys).ran = [] := by
          unfold main
          rw [hr]
          simp only
          rw [hp]
          exact main_catch_ran 2 e ⟨[], []⟩
        exact absurd this hran
      | ok order =>
        refine ⟨g, order, rfl, hp, ?_⟩
        rw [main_of_execute sys hr hp]
        cases hex : execute_dag g sys order ⟨[], []⟩ with
        | mk ex r =>
          cases r with
          | error e => exact main_catch_ran 3 e ex
          | ok u => rfl

/-- C12 at scenario 3: two unconnected jobs are rejected and nothing is run. -/
theorem C12_no_job_runs_after_failed_validation_witness :
    read_dag_input (.jobs declsScenario3) = .ok scenario3 ∧
      preprocess_dag scenario3 = .error (.ordinal "More than one component.") ∧
      (main (.jobs declsScenario3) scenario5System).ran = [] :=
  ⟨by decide, by decide,
    (C12_no_job_runs_after_failed_validation (.jobs declsScenario3) scenario5System).1
      scenario3 (.ordinal "More than one component.") (by decide) (by decide)⟩

end Kp
